import Mathlib

/-!
Verification of the hybrid retrieval engine of the RAG pipeline
(`backend/retrieval/hybrid_search.py` and `backend/indexing/bm25_index.py`).

The Python code is shallowly embedded: chunks are records, Python floats are
modelled as exact rationals, Python dicts (which preserve insertion order) are
modelled as association lists, and the two index back ends are abstracted by
the ranked `(chunk, score)` lists they return for a query.  Each definition
mirrors one Python function; the claim theorems are stated about these
definitions.
-/

/-- A retrievable unit of text.  The fusion / diversity code reads only the
`chunk_id` and `product_name` keys of the chunk dict; `text` carries the
payload. -/
structure Chunk where
  chunk_id : String
  product_name : String
  text : String
deriving DecidableEq, Repr, Inhabited

/-- One formatted hit of a single retrieval method, as built by
`HybridSearcher.search_bm25` / `search_vector`: the chunk, the method score and
the 1-indexed rank within that method's result list. -/
structure MethodHit where
  chunk : Chunk
  score : ℚ
  rank : Nat
deriving DecidableEq, Repr

/-- `HybridSearcher.search_bm25`: formats the raw `(chunk, score)` list
returned by the BM25 index, attaching 1-indexed ranks (Python:
`enumerate(results, 1)`).  The raw list stands for
`self.bm25_index.search(query, top_k=retrieve_k)`. -/
def search_bm25 (results : List (Chunk × ℚ)) : List MethodHit :=
  results.enum.map (fun pr => { chunk := pr.2.1, score := pr.2.2, rank := pr.1 + 1 })

/-- `HybridSearcher.search_vector`: formats the raw `(chunk, score)` list
returned by the vector store, attaching 1-indexed ranks.  The Python code
rebuilds the chunk dict from the payload fields; the result carries the same
chunk, so the formatting coincides with `search_bm25`. -/
def search_vector (results : List (Chunk × ℚ)) : List MethodHit :=
  results.enum.map (fun pr => { chunk := pr.2.1, score := pr.2.2, rank := pr.1 + 1 })

/-- `HybridSearcher._calculate_rrf_score`: `1 / (k + rank)`. -/
def calculate_rrf_score (rrf_k : ℚ) (rank : Nat) : ℚ :=
  1 / (rrf_k + rank)

/-- One value of the `rrf_scores` accumulation dict in
`HybridSearcher.search_hybrid`.  All fields start out `None` / `0.0`
(the `defaultdict` default). -/
structure RRFEntry where
  rrf_score : ℚ
  bm25_rank : Option Nat
  vector_rank : Option Nat
  bm25_score : Option ℚ
  vector_score : Option ℚ
  chunk : Option Chunk
deriving DecidableEq, Repr

/-- The `defaultdict` default value of the accumulation map. -/
def defaultRRFEntry : RRFEntry :=
  { rrf_score := 0, bm25_rank := none, vector_rank := none,
    bm25_score := none, vector_score := none, chunk := none }

/-- The accumulation dict `rrf_scores`, keyed by chunk id.  Python dicts keep
insertion order, so it is modelled as an association list: updating an existing
key rewrites it in place, a new key is appended at the end. -/
def RRFMap : Type := List (String × RRFEntry)

/-- Update the entry of `cid` in place, or append `f defaultRRFEntry` if the
key is absent (the `defaultdict` behaviour of `rrf_scores[chunk_id]`). -/
def updateEntry (m : List (String × RRFEntry)) (cid : String)
    (f : RRFEntry → RRFEntry) : List (String × RRFEntry) :=
  match m with
  | [] => [(cid, f defaultRRFEntry)]
  | (c, e) :: rest =>
    if c = cid then (c, f e) :: rest else (c, e) :: updateEntry rest cid f

/-- The guard `if target_products and product_name not in target_products:
continue` — a hit is skipped iff the target list is present, non-empty
(Python truthiness) and does not contain the product. -/
def skipHit (target_products : Option (List String)) (product_name : String) : Bool :=
  match target_products with
  | none => false
  | some l => !l.isEmpty && !l.contains product_name

/-- The BM25 accumulation step of `search_hybrid`: add the RRF contribution and
record rank, score and chunk (the chunk is overwritten unconditionally). -/
def addBm25Hit (rrf_k : ℚ) (target_products : Option (List String))
    (m : List (String × RRFEntry)) (h : MethodHit) : List (String × RRFEntry) :=
  if skipHit target_products h.chunk.product_name then m
  else
    updateEntry m h.chunk.chunk_id (fun e =>
      { e with rrf_score := e.rrf_score + calculate_rrf_score rrf_k h.rank,
               bm25_rank := some h.rank,
               bm25_score := some h.score,
               chunk := some h.chunk })

/-- The vector accumulation step of `search_hybrid`: add the RRF contribution,
record rank and score, and set the chunk only if it is still `None`. -/
def addVectorHit (rrf_k : ℚ) (target_products : Option (List String))
    (m : List (String × RRFEntry)) (h : MethodHit) : List (String × RRFEntry) :=
  if skipHit target_products h.chunk.product_name then m
  else
    updateEntry m h.chunk.chunk_id (fun e =>
      { e with rrf_score := e.rrf_score + calculate_rrf_score rrf_k h.rank,
               vector_rank := some h.rank,
               vector_score := some h.score,
               chunk := match e.chunk with | none => some h.chunk | some c => some c })

/-- The full accumulation of `search_hybrid`: fold the BM25 contributions, then
the vector contributions, into the (initially empty) `rrf_scores` dict. -/
def buildRRF (rrf_k : ℚ) (target_products : Option (List String))
    (bm25_results vector_results : List MethodHit) : List (String × RRFEntry) :=
  vector_results.foldl (addVectorHit rrf_k target_products)
    (bm25_results.foldl (addBm25Hit rrf_k target_products) [])

/-- One element of the final result list of `search_hybrid` (and of
`_ensure_product_diversity`). -/
structure FusedResult where
  chunk_id : String
  chunk : Option Chunk
  rrf_score : ℚ
  bm25_rank : Option Nat
  vector_rank : Option Nat
  bm25_score : Option ℚ
  vector_score : Option ℚ
deriving DecidableEq, Repr

/-- A junk value for the (unreachable) out-of-range list accesses below. -/
def junkFused : FusedResult :=
  { chunk_id := "", chunk := none, rrf_score := 0, bm25_rank := none,
    vector_rank := none, bm25_score := none, vector_score := none }

/-- Build the result dict from a `(chunk_id, scores)` pair of the accumulation
map — the dict literal repeated in `search_hybrid` and
`_ensure_product_diversity`. -/
def mkFused (cid : String) (e : RRFEntry) : FusedResult :=
  { chunk_id := cid, chunk := e.chunk, rrf_score := e.rrf_score,
    bm25_rank := e.bm25_rank, vector_rank := e.vector_rank,
    bm25_score := e.bm25_score, vector_score := e.vector_score }

/-- Product name of an accumulation-map entry (`scores["chunk"]["product_name"]`).
Every entry of the map is created with its chunk set, so the `none` branch is
unreachable. -/
def eprod (pr : String × RRFEntry) : String :=
  match pr.2.chunk with
  | some c => c.product_name
  | none => ""

/-- Product name of a final result (`result["chunk"]["product_name"]`). -/
def fprod (r : FusedResult) : String :=
  match r.chunk with
  | some c => c.product_name
  | none => ""

/-- The sort key ordering used to model Python's
`sorted(rrf_scores.items(), key=..., reverse=True)`: Python's sort is stable,
and a stable descending sort of a list equals sorting its index-tagged
elements by the linear order (score descending, then position ascending). -/
def rrfSortRel (x y : Nat × (String × RRFEntry)) : Prop :=
  x.2.2.rrf_score > y.2.2.rrf_score ∨
    (x.2.2.rrf_score = y.2.2.rrf_score ∧ x.1 ≤ y.1)

instance : DecidableRel rrfSortRel := fun x y => by
  unfold rrfSortRel
  infer_instance

/-- `sorted(rrf_scores.items(), key=lambda x: x[1]["rrf_score"], reverse=True)`. -/
def sortByScore (m : List (String × RRFEntry)) : List (String × RRFEntry) :=
  (m.enum.insertionSort rrfSortRel).map (fun pr => pr.2)

/-- Pointwise increment of the `product_counts` defaultdict. -/
def bumpCount (counts : String → Nat) (p : String) : String → Nat :=
  fun q => if q = p then counts q + 1 else counts q

/-- Pointwise decrement of the `product_counts` defaultdict. -/
def dropCount (counts : String → Nat) (p : String) : String → Nat :=
  fun q => if q = p then counts q - 1 else counts q

/-- First pass of `_ensure_product_diversity`: walk the sorted results, adding
them to `final_results` until `top_k` entries are collected, while counting
products. -/
def firstPassAux (top_k : Nat) :
    List (String × RRFEntry) → List FusedResult → (String → Nat) →
    List FusedResult × (String → Nat)
  | [], final, counts => (final, counts)
  | pr :: rest, final, counts =>
    if final.length ≥ top_k then (final, counts)
    else firstPassAux top_k rest (final ++ [mkFused pr.1 pr.2])
      (bumpCount counts (eprod pr))

/-- The inner scan of the second pass: find the index of the lowest-scoring
already-included result whose product is over-represented (the loop over
`enumerate(final_results)` with `min_score` starting at infinity, modelled by
`none`). -/
def findMinIdxAux (p : String) (counts : String → Nat) (minC : Nat) :
    List FusedResult → Nat → Option Nat × Option ℚ → Option Nat × Option ℚ
  | [], _, acc => acc
  | r :: rest, i, acc =>
    let next :=
      if fprod r ≠ p ∧ minC < counts (fprod r) ∧ counts p < counts (fprod r) then
        match acc.2 with
        | none => (some i, some r.rrf_score)
        | some m => if r.rrf_score < m then (some i, some r.rrf_score) else acc
      else acc
    findMinIdxAux p counts minC rest (i + 1) next

/-- Index of the replacement victim chosen by the second pass, if any. -/
def findMinIdx (final : List FusedResult) (p : String) (counts : String → Nat)
    (minC : Nat) : Option Nat :=
  (findMinIdxAux p counts minC final 0 (none, none)).1

/-- Second pass of `_ensure_product_diversity`: for every candidate whose
product is under-represented, replace the lowest-scoring over-represented
result in place; stop early once every product present in the pool meets the
minimum share. -/
def secondPass (minC : Nat) (allProducts : List String) :
    List (String × RRFEntry) → List FusedResult → (String → Nat) →
    List FusedResult
  | [], final, _ => final
  | pr :: rest, final, counts =>
    if final.any (fun r => r.chunk_id = pr.1) then
      secondPass minC allProducts rest final counts
    else if counts (eprod pr) < minC then
      match findMinIdx final (eprod pr) counts minC with
      | none => secondPass minC allProducts rest final counts
      | some idx =>
        let oldP := fprod (final.getD idx junkFused)
        let final' := final.set idx (mkFused pr.1 pr.2)
        let counts' := bumpCount (dropCount counts oldP) (eprod pr)
        if allProducts.all (fun q => minC ≤ counts' q) then final'
        else secondPass minC allProducts rest final' counts'
    else secondPass minC allProducts rest final counts

/-- `HybridSearcher._ensure_product_diversity`.  `all_products` is a Python
set used only inside an `all(...)`, so a list with duplicates is an equivalent
model; `min_chunks_per_product = max(1, top_k // 2)`. -/
def ensure_product_diversity (sorted_results : List (String × RRFEntry))
    (top_k : Nat) : List FusedResult :=
  let fp := firstPassAux top_k sorted_results [] (fun _ => 0)
  let min_chunks_per_product := max 1 (top_k / 2)
  secondPass min_chunks_per_product (sorted_results.map eprod)
    sorted_results fp.1 fp.2

/-- The diversity guard of `search_hybrid`:
`apply_diversity and (target_products is None or len(target_products) > 1)`. -/
def should_apply_diversity (apply_diversity : Bool)
    (target_products : Option (List String)) : Bool :=
  apply_diversity &&
    (match target_products with
     | none => true
     | some l => decide (l.length > 1))

/-- `HybridSearcher.search_hybrid`, abstracted over the raw ranked lists that
`self.search_bm25(query, retrieve_k)` and `self.search_vector(query,
retrieve_k)` return (the per-method retrieval windows). -/
def search_hybrid (rrf_k : ℚ) (bm25_raw vector_raw : List (Chunk × ℚ))
    (top_k : Nat) (target_products : Option (List String))
    (apply_diversity : Bool) : List FusedResult :=
  let bm25_results := search_bm25 bm25_raw
  let vector_results := search_vector vector_raw
  let rrf_scores := buildRRF rrf_k target_products bm25_results vector_results
  let sorted_results := sortByScore rrf_scores
  if should_apply_diversity apply_diversity target_products then
    ensure_product_diversity sorted_results top_k
  else
    (sorted_results.take top_k).map (fun pr => mkFused pr.1 pr.2)

/-- `search_hybrid` at the level of the two fallible index calls: the Python
body runs `search_bm25` first, then `search_vector`, with no `try` around
either, so an exception in either call propagates unmodified. -/
def search_hybrid_run (rrf_k : ℚ)
    (bm25_call : Except String (List (Chunk × ℚ)))
    (vector_call : Except String (List (Chunk × ℚ)))
    (top_k : Nat) (target_products : Option (List String))
    (apply_diversity : Bool) : Except String (List FusedResult) := do
  let b ← bm25_call
  let v ← vector_call
  pure (search_hybrid rrf_k b v top_k target_products apply_diversity)

/-- Does `needle` occur at the head of `hay`?  (Helper for Python's substring
test.) -/
def strStarts : List Char → List Char → Bool
  | [], _ => true
  | _ :: _, [] => false
  | a :: as, b :: bs => a = b && strStarts as bs

/-- Python's `needle in hay` substring test on character lists. -/
def substrIn (needle : List Char) : List Char → Bool
  | [] => strStarts needle []
  | h :: t => strStarts needle (h :: t) || substrIn needle t

/-- Python's `hay.__contains__(needle)` on strings. -/
def strContains (hay needle : String) : Bool :=
  substrIn needle.data hay.data

/-- Python's `str.lower()` restricted to the alphabet the code uses: ASCII
letters plus the German umlauts appearing in the keyword tables. -/
def pyCharLower (c : Char) : Char :=
  if c = 'Ä' then 'ä' else if c = 'Ö' then 'ö' else if c = 'Ü' then 'ü'
  else c.toLower

/-- Python's `str.lower()` on a whole string. -/
def pyLower (s : String) : String :=
  String.mk (s.data.map pyCharLower)

/-- Accumulator recursion for Python's no-argument `str.split()`: split on
runs of whitespace, dropping empty pieces. -/
def pySplitAux : List Char → List Char → List String
  | [], acc => if acc.isEmpty then [] else [String.mk acc.reverse]
  | c :: rest, acc =>
    if c.isWhitespace then
      if acc.isEmpty then pySplitAux rest []
      else String.mk acc.reverse :: pySplitAux rest []
    else pySplitAux rest (c :: acc)

/-- Python's `str.split()` with no arguments (whitespace runs, no empties). -/
def pySplitWs (s : String) : List String :=
  pySplitAux s.data []

/-- Python's `query.count( the question mark )`. -/
def qmarkCount (s : String) : Nat :=
  (s.data.filter (fun c => c = '?')).length

/-- `BM25Index._tokenize`: lowercase, then whitespace split. -/
def tokenize (text : String) : List String :=
  pySplitWs (pyLower text)

/-- The state of a `BM25Index` object that matters for `search`: the chunk
list and, when loaded, the underlying ranking model.  The `rank_bm25` library
call `self.bm25.get_scores(query_tokens)` is abstracted as a function from the
token list to the per-chunk score list. -/
structure BM25Index where
  chunks : List Chunk
  bm25 : Option (List String → List ℚ)

/-- Score of corpus index `i` (Python `scores[i]`; out of range is
unreachable when the model returns one score per chunk). -/
def scoreAt (scores : List ℚ) (i : Nat) : ℚ :=
  scores.getD i 0

/-- The ordering by which `BM25Index.search` ranks corpus indices:
`sorted(range(len(scores)), key=lambda i: scores[i], reverse=True)` with
Python's stable sort, i.e. the linear order (score descending, then corpus
index ascending). -/
def bm25SortRel (scores : List ℚ) (i j : Nat) : Prop :=
  scoreAt scores i > scoreAt scores j ∨
    (scoreAt scores i = scoreAt scores j ∧ i ≤ j)

instance (scores : List ℚ) : DecidableRel (bm25SortRel scores) := fun i j => by
  unfold bm25SortRel
  infer_instance

/-- `top_indices` of `BM25Index.search`: all corpus indices, ranked, truncated
to `top_k`. -/
def bm25TopIndices (scores : List ℚ) (top_k : Nat) : List Nat :=
  ((List.range scores.length).insertionSort (bm25SortRel scores)).take top_k

/-- `BM25Index.search`: raises `ValueError` when invoked before the index is
loaded, otherwise returns the `top_k` best `(chunk, score)` pairs. -/
def BM25Index.search (idx : BM25Index) (query : String) (top_k : Nat) :
    Except String (List (Chunk × ℚ)) :=
  match idx.bm25 with
  | none => .error "Index not loaded. Call load() or build_index() first."
  | some get_scores =>
    let query_tokens := tokenize query
    let scores := get_scores query_tokens
    let top_indices := bm25TopIndices scores top_k
    .ok (top_indices.map (fun i => (idx.chunks.getD i default, scoreAt scores i)))

/-- The analysis record returned by `HybridSearcher._analyze_query`. -/
structure QueryAnalysis where
  target_products : List String
  is_comparison : Bool
  complexity : String
  top_k : Nat
deriving DecidableEq, Repr

/-- The Apple product keyword variants of `_analyze_query`. -/
def apple_keywords : List String :=
  ["apple watch", "apple", "series 11"]

/-- The Garmin product keyword variants of `_analyze_query`. -/
def garmin_keywords : List String :=
  ["garmin", "forerunner", "970"]

/-- The comparison-language markers of `_analyze_query` (English and German). -/
def comparison_terms : List String :=
  ["compare", "comparison", "versus", "vs", "vs.", "v ",
   "difference", "differences", "better", "which", "between",
   "sowohl", "sowie", "beide", "unterschied", "unterschiede",
   "vergleich", "besser", "welche", "zwischen"]

/-- The complexity markers of `_analyze_query` (English and German). -/
def complexity_indicators : List String :=
  ["how", "why", "what are", "explain", "detailed",
   "step", "guide", "tutorial", "setup", "configure",
   "wie", "warum", "was sind", "erklären", "detailliert",
   "schritt", "anleitung", "einrichten", "konfigurieren"]

/-- `HybridSearcher._analyze_query`: detect mentioned products, comparison
language and complexity, and derive the recommended result count. -/
def analyze_query (query : String) : QueryAnalysis :=
  let query_lower := pyLower query
  let mentions_apple := apple_keywords.any (fun kw => strContains query_lower kw)
  let mentions_garmin := garmin_keywords.any (fun kw => strContains query_lower kw)
  let target_products :=
    (if mentions_apple then ["Apple Watch Series 11"] else []) ++
      (if mentions_garmin then ["Garmin Forerunner 970"] else [])
  let is_comparison :=
    decide (target_products.length ≥ 2) ||
      comparison_terms.any (fun t => strContains query_lower t)
  let is_complex :=
    complexity_indicators.any (fun t => strContains query_lower t) ||
      decide (qmarkCount query > 1) ||
      decide ((pySplitWs query).length > 15)
  { target_products := target_products,
    is_comparison := is_comparison,
    complexity := if is_complex then "complex" else "simple",
    top_k := if is_complex then 8 else if is_comparison then 5 else 5 }

/-- The per-method RRF contribution a chunk id receives, as the specification
states it: the sum, over the hits of that method's formatted result list whose
chunk id matches and which pass the target filter, of `1 / (K + rank)` with
`rank` the hit's 1-indexed rank. -/
def specContribution (rrf_k : ℚ) (target_products : Option (List String))
    (hits : List MethodHit) (cid : String) : ℚ :=
  (hits.map (fun h =>
    if h.chunk.chunk_id = cid && !skipHit target_products h.chunk.product_name
    then calculate_rrf_score rrf_k h.rank else 0)).sum

instance : IsTotal (Nat × (String × RRFEntry)) rrfSortRel where
  total a b := by
    unfold rrfSortRel
    rcases lt_trichotomy a.2.2.rrf_score b.2.2.rrf_score with h | h | h
    · exact Or.inr (Or.inl h)
    · rcases Nat.le_total a.1 b.1 with hn | hn
      · exact Or.inl (Or.inr ⟨h, hn⟩)
      · exact Or.inr (Or.inr ⟨h.symm, hn⟩)
    · exact Or.inl (Or.inl h)

instance : IsTrans (Nat × (String × RRFEntry)) rrfSortRel where
  trans a b c hab hbc := by
    unfold rrfSortRel at *
    rcases hab with h1 | ⟨h1, h1n⟩ <;> rcases hbc with h2 | ⟨h2, h2n⟩
    · exact Or.inl (lt_trans h2 h1)
    · exact Or.inl (by rw [← h2]; exact h1)
    · exact Or.inl (by rw [h1]; exact h2)
    · exact Or.inr ⟨h1.trans h2, h1n.trans h2n⟩

/-- Number of final results carrying a given product (the quantity tracked by
the `product_counts` defaultdict). -/
def countF (l : List FusedResult) (q : String) : Nat :=
  (l.filter (fun r => fprod r == q)).length

/-- Number of pool entries carrying a given product. -/
def countE (l : List (String × RRFEntry)) (q : String) : Nat :=
  (l.filter (fun pr => eprod pr == q)).length

instance (scores : List ℚ) : IsTotal Nat (bm25SortRel scores) where
  total a b := by
    unfold bm25SortRel
    rcases lt_trichotomy (scoreAt scores a) (scoreAt scores b) with h | h | h
    · exact Or.inr (Or.inl h)
    · rcases Nat.le_total a b with hn | hn
      · exact Or.inl (Or.inr ⟨h, hn⟩)
      · exact Or.inr (Or.inr ⟨h.symm, hn⟩)
    · exact Or.inl (Or.inl h)

instance (scores : List ℚ) : IsTrans Nat (bm25SortRel scores) where
  trans a b c hab hbc := by
    unfold bm25SortRel at *
    rcases hab with h1 | ⟨h1, h1n⟩ <;> rcases hbc with h2 | ⟨h2, h2n⟩
    · exact Or.inl (lt_trans h2 h1)
    · exact Or.inl (by rw [← h2]; exact h1)
    · exact Or.inl (by rw [h1]; exact h2)
    · exact Or.inr ⟨h1.trans h2, h1n.trans h2n⟩

/-- The sorted fused candidate pool of a `search_hybrid` call (the
`sorted_results` local variable of the Python function). -/
def fusedPool (rrf_k : ℚ) (bm25_raw vector_raw : List (Chunk × ℚ))
    (target_products : Option (List String)) : List (String × RRFEntry) :=
  sortByScore (buildRRF rrf_k target_products
    (search_bm25 bm25_raw) (search_vector vector_raw))

/-- Short-hand for building concrete chunks in concrete instances. -/
def mkChunk (i p : String) : Chunk :=
  { chunk_id := i, product_name := p, text := i }

/-- The fused entry produced by a single passing lexical hit of rank 1 and
score 5 on the chunk `a1` of entity `A` (used in concrete instances). -/
def oneHitEntry : RRFEntry :=
  { rrf_score := 0 + calculate_rrf_score 60 1, bm25_rank := some 1,
    vector_rank := none, bm25_score := some 5, vector_score := none,
    chunk := some (mkChunk "a1" "A") }

/-- The fused result corresponding to `oneHitEntry`. -/
def oneHitResult : FusedResult :=
  mkFused "a1" oneHitEntry

/-- The surviving filtered hit of the concrete two-hit instance below: rank 2
in the unfiltered lexical list, behind a rank-1 hit of another entity. -/
def survivingHit : MethodHit :=
  { chunk := mkChunk "a1" "A", score := 4, rank := 2 }

/-- The fused entry of the surviving hit of the filtered two-hit instance:
rank 2 of the unfiltered lexical list, single contribution `1/(60+2)`. -/
def filteredHitEntry : RRFEntry :=
  { rrf_score := 0 + calculate_rrf_score 60 2, bm25_rank := some 2,
    vector_rank := none, bm25_score := some 4, vector_score := none,
    chunk := some (mkChunk "a1" "A") }

/-- A fused entry as produced by a single passing lexical hit with the given
rank and raw score (RRF constant 60). -/
def poolEntry (i p : String) (rank : Nat) (score : ℚ) : String × RRFEntry :=
  (i, { rrf_score := 0 + calculate_rrf_score 60 rank, bm25_rank := some rank,
        vector_rank := none, bm25_score := some score, vector_score := none,
        chunk := some (mkChunk i p) })

/-- Concrete lexical window: four chunks of entity A ahead of two of entity B. -/
def braw10 : List (Chunk × ℚ) :=
  [(mkChunk "a1" "A", 9), (mkChunk "a2" "A", 8), (mkChunk "a3" "A", 7),
   (mkChunk "a4" "A", 6), (mkChunk "b1" "B", 5), (mkChunk "b2" "B", 4)]

/-- The fused candidate pool produced by `braw10` with an empty vector list:
already in descending RRF order. -/
def pool10 : List (String × RRFEntry) :=
  [poolEntry "a1" "A" 1 9, poolEntry "a2" "A" 2 8, poolEntry "a3" "A" 3 7,
   poolEntry "a4" "A" 4 6, poolEntry "b1" "B" 5 5, poolEntry "b2" "B" 6 4]

/-- The first five results of `pool10` — the first diversity pass for
`top_k = 5`. -/
def final10 : List FusedResult :=
  [mkFused "a1" (poolEntry "a1" "A" 1 9).2, mkFused "a2" (poolEntry "a2" "A" 2 8).2,
   mkFused "a3" (poolEntry "a3" "A" 3 7).2, mkFused "a4" (poolEntry "a4" "A" 4 6).2,
   mkFused "b1" (poolEntry "b1" "B" 5 5).2]

/-- The diversity output on `pool10`: `b2` replaces `a4` in place, leaving the
list out of descending score order at positions 3 and 4. -/
def result10 : List FusedResult :=
  [mkFused "a1" (poolEntry "a1" "A" 1 9).2, mkFused "a2" (poolEntry "a2" "A" 2 8).2,
   mkFused "a3" (poolEntry "a3" "A" 3 7).2, mkFused "b2" (poolEntry "b2" "B" 6 4).2,
   mkFused "b1" (poolEntry "b1" "B" 5 5).2]

/-- Eligibility of an already-included result to be replaced in the second
diversity pass, relative to the under-represented product `p`. -/
def eligibleVictim (p : String) (counts : String → Nat) (minC : Nat)
    (r : FusedResult) : Prop :=
  fprod r ≠ p ∧ minC < counts (fprod r) ∧ counts p < counts (fprod r)

/-- How many candidates of product `X` remain in `rest` that are not yet
included in `final` (by chunk id) — the supply the second diversity pass can
still draw from. -/
def supplyCount (X : String) (rest : List (String × RRFEntry))
    (final : List FusedResult) : Nat :=
  (rest.filter (fun pr =>
    decide (eprod pr = X) &&
      !(final.any (fun r => decide (r.chunk_id = pr.1))))).length

/-- Lookup in the accumulation map (Python `rrf_scores[cid]` read access). -/
def findVal (m : List (String × RRFEntry)) (cid : String) : Option RRFEntry :=
  (m.find? (fun pr => pr.1 == cid)).map (fun pr => pr.2)

/-- Fused score currently accumulated for a chunk id (`0` when absent — the
`defaultdict` default). -/
def scoreAtId (m : List (String × RRFEntry)) (cid : String) : ℚ :=
  ((findVal m cid).map RRFEntry.rrf_score).getD 0

/-- BM25 rank currently recorded for a chunk id. -/
def bm25RankAt (m : List (String × RRFEntry)) (cid : String) : Option Nat :=
  (findVal m cid).bind (fun e => e.bm25_rank)

lemma findVal_nil (cid : String) : findVal [] cid = none := rfl

lemma findVal_cons (c : String) (e : RRFEntry) (rest : List (String × RRFEntry))
    (cid : String) :
    findVal ((c, e) :: rest) cid = if c = cid then some e else findVal rest cid := by
  by_cases h : c = cid
  · simp [findVal, List.find?_cons_of_pos, h]
  · simp [findVal, List.find?_cons_of_neg, h]

lemma findVal_updateEntry_self (m : List (String × RRFEntry)) (cid : String)
    (f : RRFEntry → RRFEntry) :
    findVal (updateEntry m cid f) cid =
      some (f ((findVal m cid).getD defaultRRFEntry)) := by
  induction m with
  | nil => simp [updateEntry, findVal_cons, findVal_nil]
  | cons pr rest ih =>
    obtain ⟨c, e⟩ := pr
    by_cases h : c = cid
    · simp [updateEntry, h, findVal_cons]
    · simp [updateEntry, h, findVal_cons, ih]

lemma findVal_updateEntry_ne (m : List (String × RRFEntry)) (cid cid' : String)
    (f : RRFEntry → RRFEntry) (h : cid' ≠ cid) :
    findVal (updateEntry m cid f) cid' = findVal m cid' := by
  have hne : cid ≠ cid' := fun hc => h hc.symm
  induction m with
  | nil =>
    simp [updateEntry, findVal_cons, findVal_nil, hne]
  | cons pr rest ih =>
    obtain ⟨c, e⟩ := pr
    by_cases hc : c = cid
    · subst hc
      have hstep : updateEntry ((c, e) :: rest) c f = (c, f e) :: rest := by
        simp [updateEntry]
      rw [hstep, findVal_cons, findVal_cons, if_neg hne, if_neg hne]
    · have hstep : updateEntry ((c, e) :: rest) cid f =
          (c, e) :: updateEntry rest cid f := by
        simp [updateEntry, hc]
      rw [hstep, findVal_cons, findVal_cons, ih]

lemma keys_updateEntry (m : List (String × RRFEntry)) (cid : String)
    (f : RRFEntry → RRFEntry) :
    (updateEntry m cid f).map Prod.fst =
      if cid ∈ m.map Prod.fst then m.map Prod.fst
      else m.map Prod.fst ++ [cid] := by
  induction m with
  | nil => simp [updateEntry]
  | cons pr rest ih =>
    obtain ⟨c, e⟩ := pr
    by_cases h : c = cid
    · simp [updateEntry, h]
    · simp only [updateEntry, if_neg h, List.map_cons]
      rw [ih]
      by_cases hm : cid ∈ rest.map Prod.fst
      · simp [hm, Ne.symm h]
      · simp [hm, Ne.symm h]

lemma nodup_keys_updateEntry (m : List (String × RRFEntry)) (cid : String)
    (f : RRFEntry → RRFEntry) (h : (m.map Prod.fst).Nodup) :
    ((updateEntry m cid f).map Prod.fst).Nodup := by
  rw [keys_updateEntry]
  by_cases hm : cid ∈ m.map Prod.fst
  · simpa [hm] using h
  · rw [if_neg hm, List.nodup_append]
    exact ⟨h, List.nodup_singleton cid, by simpa [List.disjoint_singleton] using hm⟩

lemma findVal_eq_of_mem (m : List (String × RRFEntry)) (cid : String)
    (e : RRFEntry) (hnd : (m.map Prod.fst).Nodup) (hm : (cid, e) ∈ m) :
    findVal m cid = some e := by
  induction m with
  | nil => cases hm
  | cons pr rest ih =>
    obtain ⟨c, e'⟩ := pr
    rcases List.mem_cons.mp hm with heq | hmem
    · injection heq.symm with h1 h2
      subst h1
      subst h2
      rw [findVal_cons, if_pos rfl]
    · have hkey : cid ∈ rest.map Prod.fst := List.mem_map_of_mem Prod.fst hmem
      have hnd' : c ∉ rest.map Prod.fst ∧ (rest.map Prod.fst).Nodup := by
        simpa using hnd
      have hc : c ≠ cid := fun hcc => hnd'.1 (hcc ▸ hkey)
      rw [findVal_cons, if_neg hc]
      exact ih hnd'.2 hmem

lemma scoreAtId_updateEntry_self (m : List (String × RRFEntry)) (cid : String)
    (f : RRFEntry → RRFEntry) (c : ℚ)
    (hf : ∀ e, (f e).rrf_score = e.rrf_score + c) :
    scoreAtId (updateEntry m cid f) cid = scoreAtId m cid + c := by
  simp only [scoreAtId, findVal_updateEntry_self, Option.map_some', Option.getD_some, hf]
  cases h : findVal m cid with
  | none => simp [defaultRRFEntry]
  | some e => simp

lemma scoreAtId_updateEntry_ne (m : List (String × RRFEntry)) (cid cid' : String)
    (f : RRFEntry → RRFEntry) (h : cid' ≠ cid) :
    scoreAtId (updateEntry m cid f) cid' = scoreAtId m cid' := by
  simp [scoreAtId, findVal_updateEntry_ne m cid cid' f h]

lemma scoreAtId_addBm25Hit (rrf_k : ℚ) (tp : Option (List String))
    (m : List (String × RRFEntry)) (h : MethodHit) (cid : String) :
    scoreAtId (addBm25Hit rrf_k tp m h) cid =
      scoreAtId m cid +
        (if h.chunk.chunk_id = cid && !skipHit tp h.chunk.product_name
         then calculate_rrf_score rrf_k h.rank else 0) := by
  unfold addBm25Hit
  cases hs : skipHit tp h.chunk.product_name with
  | true => simp [hs]
  | false =>
    rw [if_neg (by simp [hs])]
    by_cases hid : h.chunk.chunk_id = cid
    · subst hid
      rw [scoreAtId_updateEntry_self m _ _ (calculate_rrf_score rrf_k h.rank)
        (fun e => rfl)]
      simp [hs]
    · rw [scoreAtId_updateEntry_ne m _ cid _ (fun hcc => hid hcc.symm)]
      simp [hid]

lemma scoreAtId_addVectorHit (rrf_k : ℚ) (tp : Option (List String))
    (m : List (String × RRFEntry)) (h : MethodHit) (cid : String) :
    scoreAtId (addVectorHit rrf_k tp m h) cid =
      scoreAtId m cid +
        (if h.chunk.chunk_id = cid && !skipHit tp h.chunk.product_name
         then calculate_rrf_score rrf_k h.rank else 0) := by
  unfold addVectorHit
  cases hs : skipHit tp h.chunk.product_name with
  | true => simp [hs]
  | false =>
    rw [if_neg (by simp [hs])]
    by_cases hid : h.chunk.chunk_id = cid
    · subst hid
      rw [scoreAtId_updateEntry_self m _ _ (calculate_rrf_score rrf_k h.rank)
        (fun e => rfl)]
      simp [hs]
    · rw [scoreAtId_updateEntry_ne m _ cid _ (fun hcc => hid hcc.symm)]
      simp [hid]

lemma scoreAtId_foldl_bm25 (rrf_k : ℚ) (tp : Option (List String)) :
    ∀ (hits : List MethodHit) (m : List (String × RRFEntry)) (cid : String),
      scoreAtId (hits.foldl (addBm25Hit rrf_k tp) m) cid =
        scoreAtId m cid + specContribution rrf_k tp hits cid := by
  intro hits
  induction hits with
  | nil => intro m cid; simp [specContribution]
  | cons h rest ih =>
    intro m cid
    rw [List.foldl_cons, ih, scoreAtId_addBm25Hit]
    simp [specContribution, add_assoc]

lemma scoreAtId_foldl_vector (rrf_k : ℚ) (tp : Option (List String)) :
    ∀ (hits : List MethodHit) (m : List (String × RRFEntry)) (cid : String),
      scoreAtId (hits.foldl (addVectorHit rrf_k tp) m) cid =
        scoreAtId m cid + specContribution rrf_k tp hits cid := by
  intro hits
  induction hits with
  | nil => intro m cid; simp [specContribution]
  | cons h rest ih =>
    intro m cid
    rw [List.foldl_cons, ih, scoreAtId_addVectorHit]
    simp [specContribution, add_assoc]

lemma nodup_keys_foldl_bm25 (rrf_k : ℚ) (tp : Option (List String)) :
    ∀ (hits : List MethodHit) (m : List (String × RRFEntry)),
      (m.map Prod.fst).Nodup →
      ((hits.foldl (addBm25Hit rrf_k tp) m).map Prod.fst).Nodup := by
  intro hits
  induction hits with
  | nil => intro m hm; simpa using hm
  | cons h rest ih =>
    intro m hm
    rw [List.foldl_cons]
    apply ih
    unfold addBm25Hit
    cases hs : skipHit tp h.chunk.product_name with
    | true => simpa [hs] using hm
    | false =>
      rw [if_neg (by simp [hs])]
      exact nodup_keys_updateEntry _ _ _ hm

lemma nodup_keys_foldl_vector (rrf_k : ℚ) (tp : Option (List String)) :
    ∀ (hits : List MethodHit) (m : List (String × RRFEntry)),
      (m.map Prod.fst).Nodup →
      ((hits.foldl (addVectorHit rrf_k tp) m).map Prod.fst).Nodup := by
  intro hits
  induction hits with
  | nil => intro m hm; simpa using hm
  | cons h rest ih =>
    intro m hm
    rw [List.foldl_cons]
    apply ih
    unfold addVectorHit
    cases hs : skipHit tp h.chunk.product_name with
    | true => simpa [hs] using hm
    | false =>
      rw [if_neg (by simp [hs])]
      exact nodup_keys_updateEntry _ _ _ hm

lemma nodup_keys_buildRRF (rrf_k : ℚ) (tp : Option (List String))
    (bm25_results vector_results : List MethodHit) :
    ((buildRRF rrf_k tp bm25_results vector_results).map Prod.fst).Nodup := by
  unfold buildRRF
  apply nodup_keys_foldl_vector
  apply nodup_keys_foldl_bm25
  simp



lemma sortByScore_perm (m : List (String × RRFEntry)) : (sortByScore m).Perm m := by
  unfold sortByScore
  simpa [List.enum_map_snd] using (List.perm_insertionSort rrfSortRel m.enum).map Prod.snd

lemma sortByScore_sorted (m : List (String × RRFEntry)) :
    List.Pairwise (fun a b : String × RRFEntry => b.2.rrf_score ≤ a.2.rrf_score)
      (sortByScore m) := by
  unfold sortByScore
  rw [List.pairwise_map]
  refine (List.sorted_insertionSort rrfSortRel m.enum).imp ?_
  intro a b hab
  rcases hab with h1 | ⟨h1, _⟩
  · exact le_of_lt h1
  · exact le_of_eq h1.symm


lemma fprod_mkFused (cid : String) (e : RRFEntry) :
    fprod (mkFused cid e) = eprod (cid, e) := rfl

lemma countF_append (l₁ l₂ : List FusedResult) (q : String) :
    countF (l₁ ++ l₂) q = countF l₁ q + countF l₂ q := by
  simp [countF, List.filter_append]

lemma countF_singleton (x : FusedResult) (q : String) :
    countF [x] q = if fprod x = q then 1 else 0 := by
  by_cases h : fprod x = q <;> simp [countF, h]

lemma firstPassAux_fst (tk : Nat) :
    ∀ (pool : List (String × RRFEntry)) (final : List FusedResult)
      (counts : String → Nat),
      (firstPassAux tk pool final counts).1 =
        final ++ (pool.take (tk - final.length)).map (fun pr => mkFused pr.1 pr.2) := by
  intro pool
  induction pool with
  | nil => intro final counts; simp [firstPassAux]
  | cons pr rest ih =>
    intro final counts
    by_cases h : final.length ≥ tk
    · have hz : tk - final.length = 0 := Nat.sub_eq_zero_of_le h
      simp [firstPassAux, if_pos h, hz]
    · have hpos : tk - final.length = (tk - (final.length + 1)) + 1 := by omega
      simp only [firstPassAux, if_neg h]
      rw [ih, hpos, List.take_succ_cons]
      simp

lemma firstPassAux_counts (tk : Nat) :
    ∀ (pool : List (String × RRFEntry)) (final : List FusedResult)
      (counts : String → Nat),
      (∀ q, counts q = countF final q) →
      ∀ q, (firstPassAux tk pool final counts).2 q =
        countF (firstPassAux tk pool final counts).1 q := by
  intro pool
  induction pool with
  | nil => intro final counts hc q; simpa [firstPassAux] using hc q
  | cons pr rest ih =>
    intro final counts hc q
    by_cases h : final.length ≥ tk
    · simpa [firstPassAux, if_pos h] using hc q
    · simp only [firstPassAux, if_neg h]
      apply ih
      intro q'
      rw [countF_append, countF_singleton, fprod_mkFused, ← hc q']
      unfold bumpCount
      by_cases hq : q' = eprod pr
      · simp [hq]
      · have hq' : ¬eprod pr = q' := fun hh => hq hh.symm
        simp [hq, hq']

lemma nodup_map_set {α β : Type} (f : α → β) :
    ∀ (l : List α) (n : Nat) (x : α),
      (l.map f).Nodup → f x ∉ l.map f → ((l.set n x).map f).Nodup := by
  intro l
  induction l with
  | nil => intro n x _ _; simp
  | cons a t ih =>
    intro n x hnd hx
    rw [List.map_cons, List.nodup_cons] at hnd
    obtain ⟨ha, ht⟩ := hnd
    rw [List.map_cons, List.mem_cons] at hx
    push_neg at hx
    obtain ⟨hxa, hxt⟩ := hx
    cases n with
    | zero =>
      rw [List.set_cons_zero, List.map_cons, List.nodup_cons]
      exact ⟨hxt, ht⟩
    | succ n =>
      rw [List.set_cons_succ, List.map_cons, List.nodup_cons]
      refine ⟨?_, ih n x ht hxt⟩
      intro hmem
      rcases List.mem_map.mp hmem with ⟨y, hy, hfy⟩
      rcases List.mem_or_eq_of_mem_set hy with hyt | hyx
      · exact ha (hfy ▸ List.mem_map_of_mem f hyt)
      · subst hyx
        exact hxa hfy

lemma secondPass_subset (minC : Nat) (allP : List String) (P : FusedResult → Prop) :
    ∀ (rest : List (String × RRFEntry)) (final : List FusedResult)
      (counts : String → Nat),
      (∀ r ∈ final, P r) →
      (∀ pr ∈ rest, P (mkFused pr.1 pr.2)) →
      ∀ r ∈ secondPass minC allP rest final counts, P r := by
  intro rest
  induction rest with
  | nil => intro final counts hf _ r hr; exact hf r (by simpa [secondPass] using hr)
  | cons pr tail ih =>
    intro final counts hf hrest r hr
    have hrest' : ∀ q ∈ tail, P (mkFused q.1 q.2) :=
      fun q hq => hrest q (List.mem_cons_of_mem pr hq)
    simp only [secondPass] at hr
    by_cases h1 : final.any (fun x => x.chunk_id = pr.1) = true
    · rw [if_pos h1] at hr
      exact ih final counts hf hrest' r hr
    · rw [if_neg h1] at hr
      by_cases h2 : counts (eprod pr) < minC
      · rw [if_pos h2] at hr
        cases hidx : findMinIdx final (eprod pr) counts minC with
        | none =>
          rw [hidx] at hr
          exact ih final counts hf hrest' r hr
        | some idx =>
          rw [hidx] at hr
          simp only at hr
          have hset : ∀ x ∈ final.set idx (mkFused pr.1 pr.2), P x := by
            intro x hxmem
            rcases List.mem_or_eq_of_mem_set hxmem with hx | hx
            · exact hf x hx
            · exact hx ▸ hrest pr (List.mem_cons_self pr tail)
          by_cases h3 : (allP.all (fun q =>
              minC ≤ bumpCount (dropCount counts (fprod (final.getD idx junkFused)))
                (eprod pr) q)) = true
          · rw [if_pos h3] at hr
            exact hset r hr
          · rw [if_neg h3] at hr
            exact ih _ _ hset hrest' r hr
      · rw [if_neg h2] at hr
        exact ih final counts hf hrest' r hr

lemma secondPass_nodup (minC : Nat) (allP : List String) :
    ∀ (rest : List (String × RRFEntry)) (final : List FusedResult)
      (counts : String → Nat),
      (final.map FusedResult.chunk_id).Nodup →
      ((secondPass minC allP rest final counts).map FusedResult.chunk_id).Nodup := by
  intro rest
  induction rest with
  | nil => intro final counts hnd; simpa [secondPass] using hnd
  | cons pr tail ih =>
    intro final counts hnd
    simp only [secondPass]
    by_cases h1 : final.any (fun x => x.chunk_id = pr.1) = true
    · rw [if_pos h1]
      exact ih final counts hnd
    · rw [if_neg h1]
      have hid : pr.1 ∉ final.map FusedResult.chunk_id := by
        intro hmem
        rcases List.mem_map.mp hmem with ⟨x, hx, hfx⟩
        exact h1 (List.any_eq_true.mpr ⟨x, hx, by simp [hfx]⟩)
      by_cases h2 : counts (eprod pr) < minC
      · rw [if_pos h2]
        cases hidx : findMinIdx final (eprod pr) counts minC with
        | none => exact ih final counts hnd
        | some idx =>
          simp only
          have hnd' : ((final.set idx (mkFused pr.1 pr.2)).map
              FusedResult.chunk_id).Nodup :=
            nodup_map_set FusedResult.chunk_id final idx (mkFused pr.1 pr.2) hnd hid
          by_cases h3 : (allP.all (fun q =>
              minC ≤ bumpCount (dropCount counts (fprod (final.getD idx junkFused)))
                (eprod pr) q)) = true
          · rw [if_pos h3]
            exact hnd'
          · rw [if_neg h3]
            exact ih _ _ hnd'
      · rw [if_neg h2]
        exact ih final counts hnd

lemma scoreAtId_nil (cid : String) : scoreAtId [] cid = 0 := rfl

lemma search_hybrid_diversity_branch (rrf_k : ℚ)
    (bm25_raw vector_raw : List (Chunk × ℚ)) (top_k : Nat)
    (tp : Option (List String)) (ad : Bool)
    (hcond : should_apply_diversity ad tp = true) :
    search_hybrid rrf_k bm25_raw vector_raw top_k tp ad =
      ensure_product_diversity (fusedPool rrf_k bm25_raw vector_raw tp) top_k := by
  simp only [search_hybrid, fusedPool]
  rw [hcond]
  simp

lemma search_hybrid_truncate_branch (rrf_k : ℚ)
    (bm25_raw vector_raw : List (Chunk × ℚ)) (top_k : Nat)
    (tp : Option (List String)) (ad : Bool)
    (hcond : should_apply_diversity ad tp = false) :
    search_hybrid rrf_k bm25_raw vector_raw top_k tp ad =
      ((fusedPool rrf_k bm25_raw vector_raw tp).take top_k).map
        (fun pr => mkFused pr.1 pr.2) := by
  simp only [search_hybrid, fusedPool]
  rw [hcond]
  simp

lemma ensure_product_diversity_mem (pool : List (String × RRFEntry)) (tk : Nat)
    (r : FusedResult) (hr : r ∈ ensure_product_diversity pool tk) :
    ∃ pr ∈ pool, r = mkFused pr.1 pr.2 := by
  simp only [ensure_product_diversity] at hr
  refine secondPass_subset _ _ (fun x => ∃ pr ∈ pool, x = mkFused pr.1 pr.2)
    pool _ _ ?_ ?_ r hr
  · intro x hx
    rw [firstPassAux_fst] at hx
    simp only [List.nil_append] at hx
    rcases List.mem_map.mp hx with ⟨pr, hpr, hx⟩
    exact ⟨pr, List.mem_of_mem_take hpr, hx.symm⟩
  · intro pr hpr
    exact ⟨pr, hpr, rfl⟩

lemma search_hybrid_mem_pool (rrf_k : ℚ) (bm25_raw vector_raw : List (Chunk × ℚ))
    (top_k : Nat) (tp : Option (List String)) (ad : Bool) (r : FusedResult)
    (hr : r ∈ search_hybrid rrf_k bm25_raw vector_raw top_k tp ad) :
    ∃ pr ∈ buildRRF rrf_k tp (search_bm25 bm25_raw) (search_vector vector_raw),
      r = mkFused pr.1 pr.2 := by
  rcases Bool.eq_false_or_eq_true (should_apply_diversity ad tp) with hc | hc
  · rw [search_hybrid_diversity_branch rrf_k bm25_raw vector_raw top_k tp ad hc] at hr
    rcases ensure_product_diversity_mem _ _ r hr with ⟨pr, hpr, heq⟩
    exact ⟨pr, (sortByScore_perm _).mem_iff.mp hpr, heq⟩
  · rw [search_hybrid_truncate_branch rrf_k bm25_raw vector_raw top_k tp ad hc] at hr
    rcases List.mem_map.mp hr with ⟨pr, hpr, heq⟩
    exact ⟨pr, (sortByScore_perm _).mem_iff.mp (List.mem_of_mem_take hpr), heq.symm⟩

/-- C1: every result returned by `search_hybrid` carries, as its fused RRF
score, exactly the sum of its per-method contributions: for each method
(lexical and vector) that returned the chunk within the retrieval window and
whose hit passed the target-entity filter, exactly `1 / (K + rank)` with `rank`
the 1-indexed rank in that method's result list; a chunk present in exactly one
list gets exactly that single contribution (the other sum is empty). -/
theorem rrf_fused_score_formula (rrf_k : ℚ)
    (bm25_raw vector_raw : List (Chunk × ℚ)) (top_k : Nat)
    (target_products : Option (List String)) (apply_diversity : Bool)
    (r : FusedResult)
    (hr : r ∈ search_hybrid rrf_k bm25_raw vector_raw top_k target_products
      apply_diversity) :
    r.rrf_score =
      specContribution rrf_k target_products (search_bm25 bm25_raw) r.chunk_id +
        specContribution rrf_k target_products (search_vector vector_raw)
          r.chunk_id := by
  rcases search_hybrid_mem_pool rrf_k bm25_raw vector_raw top_k target_products
    apply_diversity r hr with ⟨pr, hpr, heq⟩
  have hfind : findVal (buildRRF rrf_k target_products (search_bm25 bm25_raw)
      (search_vector vector_raw)) pr.1 = some pr.2 :=
    findVal_eq_of_mem _ pr.1 pr.2
      (nodup_keys_buildRRF rrf_k target_products _ _) (by simpa using hpr)
  have hscore : scoreAtId (buildRRF rrf_k target_products (search_bm25 bm25_raw)
      (search_vector vector_raw)) pr.1 = pr.2.rrf_score := by
    simp [scoreAtId, hfind]
  rw [heq]
  show pr.2.rrf_score = _
  rw [← hscore]
  unfold buildRRF
  rw [scoreAtId_foldl_vector, scoreAtId_foldl_bm25, scoreAtId_nil, zero_add]
  rfl

/-- C9: the chunk ids of the results returned by `search_hybrid` are pairwise
distinct — fusion accumulates into a map keyed by chunk id, the truncation
branch emits each map entry at most once, and the diversity pass skips
candidates already present and replaces in place rather than appending. -/
theorem hybrid_results_distinct (rrf_k : ℚ)
    (bm25_raw vector_raw : List (Chunk × ℚ)) (top_k : Nat)
    (target_products : Option (List String)) (apply_diversity : Bool) :
    ((search_hybrid rrf_k bm25_raw vector_raw top_k target_products
      apply_diversity).map FusedResult.chunk_id).Nodup := by
  have hpoolkeys : ((fusedPool rrf_k bm25_raw vector_raw target_products).map
      Prod.fst).Nodup := by
    refine ((sortByScore_perm _).map Prod.fst).nodup_iff.mpr ?_
    exact nodup_keys_buildRRF rrf_k target_products _ _
  have htake : ∀ tk : Nat, (((fusedPool rrf_k bm25_raw vector_raw
      target_products).take tk).map (fun pr => mkFused pr.1 pr.2)).map
        FusedResult.chunk_id =
      ((fusedPool rrf_k bm25_raw vector_raw target_products).take tk).map
        Prod.fst := by
    intro tk
    have hfun : (FusedResult.chunk_id ∘ fun pr : String × RRFEntry =>
        mkFused pr.1 pr.2) = Prod.fst := by
      funext pr
      rfl
    rw [List.map_map, hfun]
  have htakeNodup : ∀ tk : Nat, (((fusedPool rrf_k bm25_raw vector_raw
      target_products).take tk).map Prod.fst).Nodup := by
    intro tk
    exact ((List.take_sublist tk _).map Prod.fst).nodup hpoolkeys
  rcases Bool.eq_false_or_eq_true (should_apply_diversity apply_diversity
      target_products) with hc | hc
  · rw [search_hybrid_diversity_branch rrf_k bm25_raw vector_raw top_k
      target_products apply_diversity hc]
    simp only [ensure_product_diversity]
    apply secondPass_nodup
    rw [firstPassAux_fst]
    simp only [List.nil_append, List.length_nil, Nat.sub_zero]
    rw [htake top_k]
    exact htakeNodup top_k
  · rw [search_hybrid_truncate_branch rrf_k bm25_raw vector_raw top_k
      target_products apply_diversity hc]
    rw [htake top_k]
    exact htakeNodup top_k

/-- C5: when diversity is disabled or exactly one entity is targeted, the
returned list is exactly the first `top_k` elements of the fused candidate
pool sorted by descending RRF score, with no diversity substitution, and in
particular it is in descending RRF-score order. -/
theorem diversity_noop_conditions (rrf_k : ℚ)
    (bm25_raw vector_raw : List (Chunk × ℚ)) (top_k : Nat)
    (target_products : Option (List String)) (apply_diversity : Bool)
    (hcond : apply_diversity = false ∨ ∃ A, target_products = some [A]) :
    search_hybrid rrf_k bm25_raw vector_raw top_k target_products
        apply_diversity =
      ((fusedPool rrf_k bm25_raw vector_raw target_products).take top_k).map
        (fun pr => mkFused pr.1 pr.2) ∧
    List.Pairwise (fun a b : FusedResult => b.rrf_score ≤ a.rrf_score)
      (search_hybrid rrf_k bm25_raw vector_raw top_k target_products
        apply_diversity) := by
  have hfalse : should_apply_diversity apply_diversity target_products = false := by
    rcases hcond with h | ⟨A, h⟩
    · simp [should_apply_diversity, h]
    · simp [should_apply_diversity, h]
  have heq := search_hybrid_truncate_branch rrf_k bm25_raw vector_raw top_k
    target_products apply_diversity hfalse
  refine ⟨heq, ?_⟩
  rw [heq]
  have hst : List.Pairwise
      (fun a b : String × RRFEntry => b.2.rrf_score ≤ a.2.rrf_score)
      ((fusedPool rrf_k bm25_raw vector_raw target_products).take top_k) :=
    (sortByScore_sorted _).sublist (List.take_sublist _ _)
  rw [List.pairwise_map]
  exact hst

lemma updateEntry_forall (P : RRFEntry → Prop) :
    ∀ (m : List (String × RRFEntry)) (cid : String) (f : RRFEntry → RRFEntry),
      (∀ pr ∈ m, P pr.2) → (∀ e, P e → P (f e)) → P (f defaultRRFEntry) →
      ∀ pr ∈ updateEntry m cid f, P pr.2 := by
  intro m
  induction m with
  | nil =>
    intro cid f _ _ hd pr hpr
    rcases List.mem_singleton.mp hpr with rfl
    exact hd
  | cons hd_pr rest ih =>
    intro cid f hm hf hd pr hpr
    obtain ⟨c, e⟩ := hd_pr
    by_cases hc : c = cid
    · rw [show updateEntry ((c, e) :: rest) cid f = (c, f e) :: rest from by
        simp [updateEntry, hc]] at hpr
      rcases List.mem_cons.mp hpr with rfl | hmem
      · exact hf e (hm (c, e) (List.mem_cons_self _ _))
      · exact hm pr (List.mem_cons_of_mem _ hmem)
    · rw [show updateEntry ((c, e) :: rest) cid f =
          (c, e) :: updateEntry rest cid f from by simp [updateEntry, hc]] at hpr
      rcases List.mem_cons.mp hpr with rfl | hmem
      · exact hm (c, e) (List.mem_cons_self _ _)
      · exact ih cid f (fun q hq => hm q (List.mem_cons_of_mem _ hq)) hf hd pr hmem

lemma mem_of_not_skip (l : List String) (hl : l ≠ []) (p : String)
    (h : skipHit (some l) p = false) : p ∈ l := by
  have hle : l.isEmpty = false := by
    cases l with
    | nil => exact absurd rfl hl
    | cons a t => rfl
  simp only [skipHit] at h
  rw [hle] at h
  simp at h
  exact h

lemma foldl_bm25_targets (rrf_k : ℚ) (l : List String) (hl : l ≠ []) :
    ∀ (hits : List MethodHit) (m : List (String × RRFEntry)),
      (∀ pr ∈ m, ∃ c, pr.2.chunk = some c ∧ c.product_name ∈ l) →
      ∀ pr ∈ hits.foldl (addBm25Hit rrf_k (some l)) m,
        ∃ c, pr.2.chunk = some c ∧ c.product_name ∈ l := by
  intro hits
  induction hits with
  | nil => intro m hm; exact hm
  | cons h rest ih =>
    intro m hm
    rw [List.foldl_cons]
    apply ih
    unfold addBm25Hit
    cases hs : skipHit (some l) h.chunk.product_name with
    | true => simpa [hs] using hm
    | false =>
      rw [if_neg (by simp [hs])]
      refine updateEntry_forall
        (fun e => ∃ c, e.chunk = some c ∧ c.product_name ∈ l) m _ _ hm ?_ ?_
      · intro e _
        exact ⟨h.chunk, rfl, mem_of_not_skip l hl _ hs⟩
      · exact ⟨h.chunk, rfl, mem_of_not_skip l hl _ hs⟩

lemma foldl_vector_targets (rrf_k : ℚ) (l : List String) (hl : l ≠ []) :
    ∀ (hits : List MethodHit) (m : List (String × RRFEntry)),
      (∀ pr ∈ m, ∃ c, pr.2.chunk = some c ∧ c.product_name ∈ l) →
      ∀ pr ∈ hits.foldl (addVectorHit rrf_k (some l)) m,
        ∃ c, pr.2.chunk = some c ∧ c.product_name ∈ l := by
  intro hits
  induction hits with
  | nil => intro m hm; exact hm
  | cons h rest ih =>
    intro m hm
    rw [List.foldl_cons]
    apply ih
    unfold addVectorHit
    cases hs : skipHit (some l) h.chunk.product_name with
    | true => simpa [hs] using hm
    | false =>
      rw [if_neg (by simp [hs])]
      refine updateEntry_forall
        (fun e => ∃ c, e.chunk = some c ∧ c.product_name ∈ l) m _ _ hm ?_ ?_
      · intro e he
        rcases he with ⟨c, hc, hcl⟩
        exact ⟨c, by simp [hc], hcl⟩
      · exact ⟨h.chunk, by simp [defaultRRFEntry], mem_of_not_skip l hl _ hs⟩

lemma buildRRF_targets (rrf_k : ℚ) (l : List String) (hl : l ≠ [])
    (bhits vhits : List MethodHit) :
    ∀ pr ∈ buildRRF rrf_k (some l) bhits vhits,
      ∃ c, pr.2.chunk = some c ∧ c.product_name ∈ l := by
  unfold buildRRF
  apply foldl_vector_targets rrf_k l hl
  apply foldl_bm25_targets rrf_k l hl
  intro pr hpr
  cases hpr

/-- C4: when `target_products` is the single entity `A`, every returned
result's chunk belongs to entity `A`, and no chunk of any other entity is
present in the fused candidate map at all — the filter runs before fusion, so
filtered hits receive no RRF entry from either method. -/
theorem target_entity_filter_correct (rrf_k : ℚ)
    (bm25_raw vector_raw : List (Chunk × ℚ)) (top_k : Nat) (apply_diversity : Bool)
    (A : String) :
    (∀ r ∈ search_hybrid rrf_k bm25_raw vector_raw top_k (some [A])
        apply_diversity, ∃ c, r.chunk = some c ∧ c.product_name = A) ∧
    (∀ pr ∈ buildRRF rrf_k (some [A]) (search_bm25 bm25_raw)
        (search_vector vector_raw),
      ∃ c, pr.2.chunk = some c ∧ c.product_name = A) := by
  have hmap : ∀ pr ∈ buildRRF rrf_k (some [A]) (search_bm25 bm25_raw)
      (search_vector vector_raw),
      ∃ c, pr.2.chunk = some c ∧ c.product_name = A := by
    intro pr hpr
    rcases buildRRF_targets rrf_k [A] (by simp) _ _ pr hpr with ⟨c, hc, hcl⟩
    exact ⟨c, hc, List.mem_singleton.mp hcl⟩
  refine ⟨?_, hmap⟩
  intro r hr
  rcases search_hybrid_mem_pool rrf_k bm25_raw vector_raw top_k (some [A])
    apply_diversity r hr with ⟨pr, hpr, heq⟩
  rcases hmap pr hpr with ⟨c, hc, hcl⟩
  exact ⟨c, by rw [heq]; exact hc, hcl⟩

lemma ite_str_complex (b : Bool) :
    ((if b then "complex" else "simple") = "complex") ↔ b = true := by
  cases b <;> simp

lemma topk_policy (b c : Bool) :
    (if b then 8 else if c then 5 else 5) =
      (if (if b then "complex" else "simple") = "complex" then 8 else (5 : Nat)) := by
  cases b <;> cases c <;> simp

/-- C6: the analyzer classifies a query as complex exactly when the lowercased
query contains a configured complexity marker, or the query has more than one
question mark, or more than 15 whitespace-separated words; the recommended
result count is 8 when complex and 5 otherwise (comparison queries included). -/
theorem query_complexity_policy (query : String) :
    ((analyze_query query).complexity = "complex" ↔
      ((∃ t ∈ complexity_indicators, strContains (pyLower query) t = true) ∨
        1 < qmarkCount query ∨ 15 < (pySplitWs query).length)) ∧
    (analyze_query query).top_k =
      (if (analyze_query query).complexity = "complex" then 8 else 5) := by
  constructor
  · simp only [analyze_query]
    rw [ite_str_complex]
    simp [List.any_eq_true, or_assoc]
  · simp only [analyze_query]
    exact topk_policy _ _

/-- C7: with a loaded index, `BM25Index.search` returns at most `top_k`
`(chunk, score)` pairs, ranked by the stable descending sort of the per-chunk
score list: pairwise, an earlier result has a strictly higher score, or an
equal score and a strictly smaller corpus index (Python's `sorted` is stable,
so ties keep corpus order).  Determinism across calls is immediate since the
embedding is a pure function of the index state and the query. -/
theorem bm25_search_ranking (idx : BM25Index) (query : String) (top_k : Nat)
    (get_scores : List String → List ℚ) (hload : idx.bm25 = some get_scores) :
    idx.search query top_k =
      Except.ok ((bm25TopIndices (get_scores (tokenize query)) top_k).map
        (fun i => (idx.chunks.getD i default,
          scoreAt (get_scores (tokenize query)) i))) ∧
    (bm25TopIndices (get_scores (tokenize query)) top_k).length ≤ top_k ∧
    List.Pairwise (fun i j =>
      scoreAt (get_scores (tokenize query)) i >
          scoreAt (get_scores (tokenize query)) j ∨
        (scoreAt (get_scores (tokenize query)) i =
            scoreAt (get_scores (tokenize query)) j ∧ i < j))
      (bm25TopIndices (get_scores (tokenize query)) top_k) := by
  refine ⟨?_, ?_, ?_⟩
  · simp [BM25Index.search, hload]
  · exact List.length_take_le _ _
  · unfold bm25TopIndices
    have hsorted : List.Pairwise (bm25SortRel (get_scores (tokenize query)))
        ((List.range (get_scores (tokenize query)).length).insertionSort
          (bm25SortRel (get_scores (tokenize query)))) :=
      List.sorted_insertionSort _ _
    have hnd : ((List.range (get_scores (tokenize query)).length).insertionSort
        (bm25SortRel (get_scores (tokenize query)))).Nodup :=
      (List.perm_insertionSort _ _).nodup_iff.mpr (List.nodup_range _)
    have hcomb := hsorted.and hnd
    have htake := hcomb.sublist (List.take_sublist top_k _)
    refine htake.imp ?_
    intro i j hij
    obtain ⟨hrel, hne⟩ := hij
    rcases hrel with h | ⟨heq, hle⟩
    · exact Or.inl h
    · exact Or.inr ⟨heq, lt_of_le_of_ne hle hne⟩

/-- C8: invoking lexical search before the index has been loaded fails with an
error rather than returning results, and `search_hybrid` wraps no handler
around either underlying index call: an error from either call propagates
unmodified to the caller, with no fallback to single-method results. -/
theorem index_error_propagation :
    (∀ (idx : BM25Index) (query : String) (top_k : Nat), idx.bm25 = none →
      idx.search query top_k =
        Except.error "Index not loaded. Call load() or build_index() first.") ∧
    (∀ (rrf_k : ℚ) (vector_call : Except String (List (Chunk × ℚ)))
        (top_k : Nat) (tp : Option (List String)) (ad : Bool) (e : String),
      search_hybrid_run rrf_k (Except.error e) vector_call top_k tp ad =
        Except.error e) ∧
    (∀ (rrf_k : ℚ) (b : List (Chunk × ℚ)) (top_k : Nat)
        (tp : Option (List String)) (ad : Bool) (e : String),
      search_hybrid_run rrf_k (Except.ok b) (Except.error e) top_k tp ad =
        Except.error e) := by
  refine ⟨?_, ?_, ?_⟩
  · intro idx q tk h
    simp [BM25Index.search, h]
  · intro rrf_k vcall tk tp ad e
    rfl
  · intro rrf_k b tk tp ad e
    rfl

/-- Concrete instantiation of `index_error_propagation`: an unloaded index of
two chunks, and hybrid runs with a failing lexical and a failing vector call. -/
theorem index_error_propagation_witness :
    ({ chunks := [mkChunk "a1" "A"], bm25 := none } : BM25Index).search "q" 5 =
      Except.error "Index not loaded. Call load() or build_index() first." ∧
    search_hybrid_run 60 (Except.error "lexical down")
      (Except.ok []) 5 none true = Except.error "lexical down" ∧
    search_hybrid_run 60 (Except.ok [(mkChunk "a1" "A", 1)])
      (Except.error "vector down") 5 none true = Except.error "vector down" :=
  ⟨index_error_propagation.1 _ "q" 5 rfl,
    index_error_propagation.2.1 60 (Except.ok []) 5 none true "lexical down",
    index_error_propagation.2.2 60 [(mkChunk "a1" "A", 1)] 5 none true
      "vector down"⟩

/-- Concrete instantiation of `rrf_fused_score_formula`: a single lexical hit
and an empty vector list; the fused score is the single BM25 contribution. -/
theorem rrf_fused_score_formula_witness :
    oneHitResult.rrf_score =
      specContribution 60 none (search_bm25 [(mkChunk "a1" "A", 5)])
          oneHitResult.chunk_id +
        specContribution 60 none (search_vector []) oneHitResult.chunk_id :=
  rrf_fused_score_formula 60 [(mkChunk "a1" "A", 5)] [] 1 none false
    oneHitResult (by exact List.mem_singleton_self _)

/-- Concrete instantiation of `target_entity_filter_correct` at the single
returned result of a one-hit call. -/
theorem target_entity_filter_correct_witness :
    ∃ c, oneHitResult.chunk = some c ∧ c.product_name = "A" :=
  (target_entity_filter_correct 60 [(mkChunk "a1" "A", 5)] [] 1 false "A").1
    oneHitResult (by exact List.mem_singleton_self _)

/-- Concrete instantiation of `diversity_noop_conditions` with diversity
disabled. -/
theorem diversity_noop_conditions_witness :
    search_hybrid 60 [(mkChunk "a1" "A", 5)] [] 5 none false =
      ((fusedPool 60 [(mkChunk "a1" "A", 5)] [] none).take 5).map
        (fun pr => mkFused pr.1 pr.2) ∧
    List.Pairwise (fun a b : FusedResult => b.rrf_score ≤ a.rrf_score)
      (search_hybrid 60 [(mkChunk "a1" "A", 5)] [] 5 none false) :=
  diversity_noop_conditions 60 [(mkChunk "a1" "A", 5)] [] 5 none false
    (Or.inl rfl)

/-- Concrete instantiation of `bm25_search_ranking` on a three-chunk corpus. -/
theorem bm25_search_ranking_witness :
    ({ chunks := [mkChunk "a1" "A", mkChunk "b1" "B", mkChunk "a2" "A"],
        bm25 := some (fun _ => [3, 5, 4]) } : BM25Index).search "battery" 2 =
      Except.ok ((bm25TopIndices ((fun _ : List String => [(3 : ℚ), 5, 4])
          (tokenize "battery")) 2).map
        (fun i => (([mkChunk "a1" "A", mkChunk "b1" "B",
            mkChunk "a2" "A"] : List Chunk).getD i default,
          scoreAt ((fun _ : List String => [(3 : ℚ), 5, 4])
            (tokenize "battery")) i))) :=
  (bm25_search_ranking
    { chunks := [mkChunk "a1" "A", mkChunk "b1" "B", mkChunk "a2" "A"],
      bm25 := some (fun _ => [3, 5, 4]) } "battery" 2
    (fun _ => [3, 5, 4]) rfl).1

lemma bm25RankAt_addVectorHit (rrf_k : ℚ) (tp : Option (List String))
    (m : List (String × RRFEntry)) (h : MethodHit) (cid : String) :
    bm25RankAt (addVectorHit rrf_k tp m h) cid = bm25RankAt m cid := by
  unfold addVectorHit
  cases hs : skipHit tp h.chunk.product_name with
  | true => rfl
  | false =>
    rw [if_neg (by simp [hs])]
    by_cases hid : h.chunk.chunk_id = cid
    · subst hid
      unfold bm25RankAt
      rw [findVal_updateEntry_self]
      cases hfv : findVal m h.chunk.chunk_id with
      | none => simp [hfv, defaultRRFEntry]
      | some e => simp [hfv]
    · unfold bm25RankAt
      rw [findVal_updateEntry_ne _ _ _ _ (fun hc => hid hc.symm)]

lemma bm25RankAt_foldl_vector (rrf_k : ℚ) (tp : Option (List String)) :
    ∀ (hits : List MethodHit) (m : List (String × RRFEntry)) (cid : String),
      bm25RankAt (hits.foldl (addVectorHit rrf_k tp) m) cid = bm25RankAt m cid := by
  intro hits
  induction hits with
  | nil => intro m cid; rfl
  | cons h rest ih =>
    intro m cid
    rw [List.foldl_cons, ih, bm25RankAt_addVectorHit]

lemma bm25RankAt_addBm25Hit_ne (rrf_k : ℚ) (tp : Option (List String))
    (m : List (String × RRFEntry)) (h : MethodHit) (cid : String)
    (hne : h.chunk.chunk_id ≠ cid) :
    bm25RankAt (addBm25Hit rrf_k tp m h) cid = bm25RankAt m cid := by
  unfold addBm25Hit
  cases hs : skipHit tp h.chunk.product_name with
  | true => rfl
  | false =>
    rw [if_neg (by simp [hs])]
    unfold bm25RankAt
    rw [findVal_updateEntry_ne _ _ _ _ (fun hc => hne hc.symm)]

lemma bm25RankAt_foldl_bm25_ne (rrf_k : ℚ) (tp : Option (List String)) :
    ∀ (hits : List MethodHit) (m : List (String × RRFEntry)) (cid : String),
      (∀ h' ∈ hits, h'.chunk.chunk_id ≠ cid) →
      bm25RankAt (hits.foldl (addBm25Hit rrf_k tp) m) cid = bm25RankAt m cid := by
  intro hits
  induction hits with
  | nil => intro m cid _; rfl
  | cons h rest ih =>
    intro m cid hne
    rw [List.foldl_cons, ih _ _ (fun h' hh => hne h' (List.mem_cons_of_mem _ hh)),
      bm25RankAt_addBm25Hit_ne _ _ _ _ _ (hne h (List.mem_cons_self _ _))]

lemma bm25RankAt_addBm25Hit_self (rrf_k : ℚ) (tp : Option (List String))
    (m : List (String × RRFEntry)) (h : MethodHit)
    (hpass : skipHit tp h.chunk.product_name = false) :
    bm25RankAt (addBm25Hit rrf_k tp m h) h.chunk.chunk_id = some h.rank := by
  unfold addBm25Hit
  rw [if_neg (by simp [hpass])]
  unfold bm25RankAt
  rw [findVal_updateEntry_self]
  simp

lemma bm25RankAt_foldl_bm25_mem (rrf_k : ℚ) (tp : Option (List String)) :
    ∀ (hits : List MethodHit) (m : List (String × RRFEntry)) (h : MethodHit),
      h ∈ hits →
      (hits.map (fun x => x.chunk.chunk_id)).Nodup →
      skipHit tp h.chunk.product_name = false →
      bm25RankAt (hits.foldl (addBm25Hit rrf_k tp) m) h.chunk.chunk_id =
        some h.rank := by
  intro hits
  induction hits with
  | nil => intro m h hmem; cases hmem
  | cons hd tl ih =>
    intro m h hmem hnd hpass
    rw [List.map_cons, List.nodup_cons] at hnd
    obtain ⟨hhd, htl⟩ := hnd
    rcases List.mem_cons.mp hmem with rfl | hmemtl
    · rw [List.foldl_cons]
      rw [bm25RankAt_foldl_bm25_ne rrf_k tp tl _ _ ?hne]
      · exact bm25RankAt_addBm25Hit_self rrf_k tp m h hpass
      case hne =>
        intro h' hh' heq
        exact hhd (heq ▸ List.mem_map_of_mem (fun x => x.chunk.chunk_id) hh')
    · rw [List.foldl_cons]
      exact ih _ h hmemtl htl hpass

/-- C2 (amended): with an active target filter, hits failing the filter are
discarded during accumulation — they contribute no fused entry — but RRF
ranks are assigned by enumerating each method's UNfiltered result list before
the filter runs: the fused entry of a surviving lexical hit records exactly
the rank the hit had in the full list (its 0-based raw-list position plus 1),
so a discarded higher-ranked hit still consumes a rank position. -/
theorem target_filter_rank_unfiltered (rrf_k : ℚ)
    (target_products : Option (List String))
    (bm25_raw vector_raw : List (Chunk × ℚ)) (h : MethodHit)
    (hmem : h ∈ search_bm25 bm25_raw)
    (hpass : skipHit target_products h.chunk.product_name = false)
    (hnd : ((search_bm25 bm25_raw).map (fun x => x.chunk.chunk_id)).Nodup) :
    bm25RankAt (buildRRF rrf_k target_products (search_bm25 bm25_raw)
      (search_vector vector_raw)) h.chunk.chunk_id = some h.rank ∧
    bm25_raw[h.rank - 1]? = some (h.chunk, h.score) := by
  constructor
  · unfold buildRRF
    rw [bm25RankAt_foldl_vector]
    exact bm25RankAt_foldl_bm25_mem rrf_k target_products _ [] h hmem hnd hpass
  · unfold search_bm25 at hmem
    rcases List.mem_map.mp hmem with ⟨pr, hpr, heq⟩
    have hget := List.mem_enum_iff_getElem?.mp hpr
    rw [← heq]
    simpa [Nat.add_sub_cancel] using hget

/-- Concrete instantiation of `target_filter_rank_unfiltered`: the surviving
hit sits at rank 2 of the unfiltered list (a filtered-out hit holds rank 1),
and its fused entry records rank 2. -/
theorem target_filter_rank_unfiltered_witness :
    bm25RankAt (buildRRF 60 (some ["A"])
      (search_bm25 [(mkChunk "b1" "B", 5), (mkChunk "a1" "A", 4)])
      (search_vector [])) survivingHit.chunk.chunk_id =
        some survivingHit.rank ∧
    ([(mkChunk "b1" "B", 5), (mkChunk "a1" "A", 4)] :
        List (Chunk × ℚ))[survivingHit.rank - 1]? =
      some (survivingHit.chunk, survivingHit.score) :=
  target_filter_rank_unfiltered 60 (some ["A"])
    [(mkChunk "b1" "B", 5), (mkChunk "a1" "A", 4)] [] survivingHit
    (by exact List.mem_cons_of_mem _ (List.mem_singleton_self _))
    rfl (by decide)

/-- C2 (counterexample): with `target_entities = some ["A"]` and the lexical
list `[B-chunk at rank 1, A-chunk at rank 2]`, the surviving chunk's fused
score is `1/(60+2)` — its rank in the unfiltered list — although its 1-indexed
rank within the filtered candidate set is 1, which would give `1/(60+1)`.  The
two values differ, refuting the claim that RRF ranks are computed over the
filtered candidate set. -/
theorem target_filter_rank_counterexample :
    (search_hybrid 60 [(mkChunk "b1" "B", 5), (mkChunk "a1" "A", 4)] [] 5
        (some ["A"]) true).map FusedResult.rrf_score =
      [calculate_rrf_score 60 2] ∧
    calculate_rrf_score 60 2 ≠ calculate_rrf_score 60 1 := by
  constructor
  · have hres : search_hybrid 60 [(mkChunk "b1" "B", 5), (mkChunk "a1" "A", 4)]
        [] 5 (some ["A"]) true = [mkFused "a1" filteredHitEntry] := rfl
    rw [hres]
    simp [mkFused, filteredHitEntry]
  · unfold calculate_rrf_score
    push_cast
    norm_num

lemma sortByScore_eq_self (m : List (String × RRFEntry))
    (h : List.Sorted rrfSortRel m.enum) : sortByScore m = m := by
  unfold sortByScore
  rw [h.insertionSort_eq, List.enum_map_snd]

lemma pool10_sorted : List.Sorted rrfSortRel pool10.enum := by
  norm_num [pool10, poolEntry, rrfSortRel, calculate_rrf_score, mkChunk,
    List.enum, List.enumFrom, List.pairwise_cons]

lemma secondPass_nil (minC : Nat) (allP : List String)
    (final : List FusedResult) (counts : String → Nat) :
    secondPass minC allP [] final counts = final := rfl

lemma secondPass_cons_inFinal (minC : Nat) (allP : List String)
    (pr : String × RRFEntry) (rest : List (String × RRFEntry))
    (final : List FusedResult) (counts : String → Nat)
    (h1 : final.any (fun r => r.chunk_id = pr.1) = true) :
    secondPass minC allP (pr :: rest) final counts =
      secondPass minC allP rest final counts := by
  simp only [secondPass]
  rw [if_pos h1]

lemma secondPass_cons_full (minC : Nat) (allP : List String)
    (pr : String × RRFEntry) (rest : List (String × RRFEntry))
    (final : List FusedResult) (counts : String → Nat)
    (h1 : final.any (fun r => r.chunk_id = pr.1) = false)
    (h2 : ¬ counts (eprod pr) < minC) :
    secondPass minC allP (pr :: rest) final counts =
      secondPass minC allP rest final counts := by
  simp only [secondPass]
  rw [if_neg (by simp [h1]), if_neg h2]

lemma secondPass_cons_none (minC : Nat) (allP : List String)
    (pr : String × RRFEntry) (rest : List (String × RRFEntry))
    (final : List FusedResult) (counts : String → Nat)
    (h1 : final.any (fun r => r.chunk_id = pr.1) = false)
    (h2 : counts (eprod pr) < minC)
    (hfm : findMinIdx final (eprod pr) counts minC = none) :
    secondPass minC allP (pr :: rest) final counts =
      secondPass minC allP rest final counts := by
  simp only [secondPass]
  rw [if_neg (by simp [h1]), if_pos h2, hfm]

lemma secondPass_cons_swap_stop (minC : Nat) (allP : List String)
    (pr : String × RRFEntry) (rest : List (String × RRFEntry))
    (final : List FusedResult) (counts : String → Nat) (idx : Nat)
    (h1 : final.any (fun r => r.chunk_id = pr.1) = false)
    (h2 : counts (eprod pr) < minC)
    (hfm : findMinIdx final (eprod pr) counts minC = some idx)
    (hall : (allP.all (fun q => minC ≤ bumpCount (dropCount counts
        (fprod (final.getD idx junkFused))) (eprod pr) q)) = true) :
    secondPass minC allP (pr :: rest) final counts =
      final.set idx (mkFused pr.1 pr.2) := by
  simp only [secondPass]
  rw [if_neg (by simp [h1]), if_pos h2, hfm]
  simp only
  rw [if_pos hall]

lemma secondPass_cons_swap_cont (minC : Nat) (allP : List String)
    (pr : String × RRFEntry) (rest : List (String × RRFEntry))
    (final : List FusedResult) (counts : String → Nat) (idx : Nat)
    (h1 : final.any (fun r => r.chunk_id = pr.1) = false)
    (h2 : counts (eprod pr) < minC)
    (hfm : findMinIdx final (eprod pr) counts minC = some idx)
    (hall : (allP.all (fun q => minC ≤ bumpCount (dropCount counts
        (fprod (final.getD idx junkFused))) (eprod pr) q)) = false) :
    secondPass minC allP (pr :: rest) final counts =
      secondPass minC allP rest (final.set idx (mkFused pr.1 pr.2))
        (bumpCount (dropCount counts (fprod (final.getD idx junkFused)))
          (eprod pr)) := by
  simp only [secondPass]
  rw [if_neg (by simp [h1]), if_pos h2, hfm]
  simp only
  rw [if_neg (by rw [hall]; simp)]

lemma calc_rrf_lt (rank1 rank2 : Nat) (h : rank1 < rank2) :
    calculate_rrf_score 60 rank2 < calculate_rrf_score 60 rank1 := by
  unfold calculate_rrf_score
  have h1 : (0 : ℚ) < 60 + rank1 := by positivity
  have h2 : (60 : ℚ) + rank1 < 60 + rank2 := by
    have : (rank1 : ℚ) < rank2 := by exact_mod_cast h
    linarith
  exact one_div_lt_one_div_of_lt h1 h2

lemma findMinIdx10 (C : String → Nat) (hA : C "A" = 4) (hB : C "B" = 1) :
    findMinIdx final10 "B" C 2 = some 3 := by
  have l21 := calc_rrf_lt 1 2 (by omega)
  have l32 := calc_rrf_lt 2 3 (by omega)
  have l43 := calc_rrf_lt 3 4 (by omega)
  simp [findMinIdx, findMinIdxAux, final10, fprod, mkFused, poolEntry, mkChunk,
    hA, hB, l21, l32, l43]

lemma secondPass_pool10 (allP : List String) (C : String → Nat)
    (hA : C "A" = 4) (hB : C "B" = 1)
    (hall : (allP.all (fun q => 2 ≤ bumpCount (dropCount C "A") "B" q)) = true) :
    secondPass 2 allP pool10 final10 C = result10 := by
  rw [show pool10 = poolEntry "a1" "A" 1 9 :: poolEntry "a2" "A" 2 8 ::
      poolEntry "a3" "A" 3 7 :: poolEntry "a4" "A" 4 6 ::
      poolEntry "b1" "B" 5 5 :: [poolEntry "b2" "B" 6 4] from rfl]
  rw [secondPass_cons_inFinal 2 allP _ _ _ C (by decide)]
  rw [secondPass_cons_inFinal 2 allP _ _ _ C (by decide)]
  rw [secondPass_cons_inFinal 2 allP _ _ _ C (by decide)]
  rw [secondPass_cons_inFinal 2 allP _ _ _ C (by decide)]
  rw [secondPass_cons_inFinal 2 allP _ _ _ C (by decide)]
  rw [secondPass_cons_swap_stop 2 allP _ _ _ C 3 (by decide)
    (by rw [show eprod (poolEntry "b2" "B" 6 4) = "B" from rfl, hB]; omega)
    (by rw [show eprod (poolEntry "b2" "B" 6 4) = "B" from rfl]
        exact findMinIdx10 C hA hB)
    (by rw [show fprod (final10.getD 3 junkFused) = "A" from rfl,
          show eprod (poolEntry "b2" "B" 6 4) = "B" from rfl]
        exact hall)]
  rfl

/-- C10: the diversity pass writes the substituted chunk into the removed
result's position and never re-sorts, so for a pool sorted A1..A4, B1, B2 with
`top_k = 5` and diversity enabled, `search_hybrid` returns a sequence that is
not in descending order of RRF score (B2, score 1/66, sits ahead of B1, score
1/65). -/
theorem diversity_breaks_score_order :
    ¬ List.Pairwise (fun a b : FusedResult => b.rrf_score ≤ a.rrf_score)
      (search_hybrid 60 braw10 [] 5 none true) := by
  have hm : buildRRF 60 none (search_bm25 braw10) (search_vector []) = pool10 := rfl
  have hpool : fusedPool 60 braw10 [] none = pool10 := by
    unfold fusedPool
    rw [hm]
    exact sortByScore_eq_self _ pool10_sorted
  have hcc := firstPassAux_counts 5 pool10 [] (fun _ => 0) (fun q => rfl)
  have hA4 : (firstPassAux 5 pool10 [] (fun _ => 0)).2 "A" = 4 := by
    rw [hcc]
    rfl
  have hB1 : (firstPassAux 5 pool10 [] (fun _ => 0)).2 "B" = 1 := by
    rw [hcc]
    rfl
  have hall : ((pool10.map eprod).all (fun q =>
      2 ≤ bumpCount (dropCount ((firstPassAux 5 pool10 [] (fun _ => 0)).2) "A")
        "B" q)) = true := by
    rw [show pool10.map eprod = ["A", "A", "A", "A", "B", "B"] from rfl]
    simp [bumpCount, dropCount, hA4, hB1]
  have hdiv : ensure_product_diversity pool10 5 = result10 := by
    show secondPass (max 1 (5 / 2)) (pool10.map eprod) pool10
      (firstPassAux 5 pool10 [] (fun _ => 0)).1
      (firstPassAux 5 pool10 [] (fun _ => 0)).2 = result10
    rw [show (max 1 (5 / 2) : Nat) = 2 from rfl]
    rw [show (firstPassAux 5 pool10 [] (fun _ => 0)).1 = final10 from rfl]
    exact secondPass_pool10 _ _ hA4 hB1 hall
  have hres : search_hybrid 60 braw10 [] 5 none true = result10 := by
    rw [search_hybrid_diversity_branch 60 braw10 [] 5 none true rfl, hpool, hdiv]
  rw [hres]
  intro hp
  simp only [result10] at hp
  have h1 := (List.pairwise_cons.mp hp).2
  have h2 := (List.pairwise_cons.mp h1).2
  have h3 := (List.pairwise_cons.mp h2).2
  have h34 := (List.pairwise_cons.mp h3).1 _ (List.mem_singleton_self _)
  norm_num [mkFused, poolEntry, calculate_rrf_score] at h34

lemma countF_cons (x : FusedResult) (l : List FusedResult) (q : String) :
    countF (x :: l) q = (if fprod x = q then 1 else 0) + countF l q := by
  by_cases h : fprod x = q
  · simp [countF, List.filter_cons, h]
    omega
  · simp [countF, List.filter_cons, h]

lemma countE_cons (x : String × RRFEntry) (l : List (String × RRFEntry))
    (q : String) :
    countE (x :: l) q = (if eprod x = q then 1 else 0) + countE l q := by
  by_cases h : eprod x = q
  · simp [countE, List.filter_cons, h]
    omega
  · simp [countE, List.filter_cons, h]

lemma countF_set (final : List FusedResult) (x r : FusedResult) (q : String) :
    ∀ (idx : Nat), final[idx]? = some r →
      countF (final.set idx x) q + (if fprod r = q then 1 else 0) =
        countF final q + (if fprod x = q then 1 else 0) := by
  induction final with
  | nil => intro idx hr; simp at hr
  | cons hd tl ih =>
    intro idx hr
    cases idx with
    | zero =>
      simp only [List.getElem?_cons_zero, Option.some.injEq] at hr
      subst hr
      rw [List.set_cons_zero, countF_cons, countF_cons]
      omega
    | succ n =>
      simp only [List.getElem?_cons_succ] at hr
      rw [List.set_cons_succ, countF_cons, countF_cons]
      have hih := ih n hr
      omega

lemma countF_two_products (A B : String) (hAB : A ≠ B) :
    ∀ final : List FusedResult,
      (∀ r ∈ final, fprod r = A ∨ fprod r = B) →
      countF final A + countF final B = final.length := by
  intro final
  induction final with
  | nil => intro _; rfl
  | cons hd tl ih =>
    intro hall
    rw [countF_cons, countF_cons, List.length_cons]
    have htl := ih (fun r hr => hall r (List.mem_cons_of_mem _ hr))
    rcases hall hd (List.mem_cons_self _ _) with h | h
    · rw [if_pos h, if_neg (h ▸ hAB)]
      omega
    · rw [if_pos h, if_neg (fun hc => hAB (hc.symm.trans h))]
      omega

lemma countF_pos_mem (final : List FusedResult) (q : String)
    (h : 0 < countF final q) : ∃ r ∈ final, fprod r = q := by
  rw [countF] at h
  rcases List.exists_mem_of_length_pos h with ⟨r, hr⟩
  rcases List.mem_filter.mp hr with ⟨hmem, hq⟩
  exact ⟨r, hmem, by simpa using hq⟩

lemma countE_pos_mem (l : List (String × RRFEntry)) (q : String)
    (h : 0 < countE l q) : ∃ pr ∈ l, eprod pr = q := by
  rw [countE] at h
  rcases List.exists_mem_of_length_pos h with ⟨pr, hpr⟩
  rcases List.mem_filter.mp hpr with ⟨hmem, hq⟩
  exact ⟨pr, hmem, by simpa using hq⟩

lemma countE_perm (l₁ l₂ : List (String × RRFEntry)) (q : String)
    (h : l₁.Perm l₂) : countE l₁ q = countE l₂ q := by
  rw [countE, countE]
  exact (h.filter _).length_eq

lemma countF_map_mk (l : List (String × RRFEntry)) (q : String) :
    countF (l.map (fun pr => mkFused pr.1 pr.2)) q = countE l q := by
  rw [countF, countE, ← List.countP_eq_length_filter,
    ← List.countP_eq_length_filter, List.countP_map]
  rfl

lemma countE_append (l₁ l₂ : List (String × RRFEntry)) (q : String) :
    countE (l₁ ++ l₂) q = countE l₁ q + countE l₂ q := by
  simp [countE, List.filter_append]

lemma anyId_eq_false_iff (final : List FusedResult) (c : String) :
    (final.any (fun r => decide (r.chunk_id = c))) = false ↔
      c ∉ final.map FusedResult.chunk_id := by
  constructor
  · intro h hmem
    rcases List.mem_map.mp hmem with ⟨r, hr, hrid⟩
    have h2 := List.any_eq_false.mp h r hr
    simp at h2
    exact h2 hrid
  · intro h
    rw [List.any_eq_false]
    intro r hr
    simp only [decide_eq_true_eq]
    intro hc
    exact h (hc ▸ List.mem_map_of_mem FusedResult.chunk_id hr)

lemma supplyCount_cons_in (X : String) (pr : String × RRFEntry)
    (tail : List (String × RRFEntry)) (final : List FusedResult)
    (h1 : (final.any (fun r => decide (r.chunk_id = pr.1))) = true) :
    supplyCount X (pr :: tail) final = supplyCount X tail final := by
  simp [supplyCount, List.filter_cons, h1]

lemma supplyCount_cons_other (X : String) (pr : String × RRFEntry)
    (tail : List (String × RRFEntry)) (final : List FusedResult)
    (hX : eprod pr ≠ X) :
    supplyCount X (pr :: tail) final = supplyCount X tail final := by
  simp [supplyCount, List.filter_cons, hX]

lemma supplyCount_cons_fresh (X : String) (pr : String × RRFEntry)
    (tail : List (String × RRFEntry)) (final : List FusedResult)
    (h1 : (final.any (fun r => decide (r.chunk_id = pr.1))) = false)
    (hX : eprod pr = X) :
    supplyCount X (pr :: tail) final = supplyCount X tail final + 1 := by
  simp [supplyCount, List.filter_cons, h1, hX]

lemma supplyCount_set_ge (X : String) (tail : List (String × RRFEntry))
    (final : List FusedResult) (idx : Nat) (pr : String × RRFEntry)
    (hnotin : pr.1 ∉ tail.map Prod.fst) :
    supplyCount X tail final ≤
      supplyCount X tail (final.set idx (mkFused pr.1 pr.2)) := by
  rw [supplyCount, supplyCount, ← List.countP_eq_length_filter,
    ← List.countP_eq_length_filter]
  apply List.countP_mono_left
  intro q hq hcond
  simp only [Bool.and_eq_true, Bool.not_eq_true', decide_eq_true_eq] at hcond ⊢
  refine ⟨hcond.1, ?_⟩
  rw [anyId_eq_false_iff] at hcond ⊢
  intro hmem
  rcases List.mem_map.mp hmem with ⟨r, hrmem, hrid⟩
  rcases List.mem_or_eq_of_mem_set hrmem with hrf | hrx
  · exact hcond.2 (hrid ▸ List.mem_map_of_mem FusedResult.chunk_id hrf)
  · subst hrx
    have hpq : pr.1 = q.1 := hrid
    exact hnotin (by rw [hpq]; exact List.mem_map_of_mem Prod.fst hq)

lemma findMinIdxAux_spec (p : String) (counts : String → Nat) (minC : Nat)
    (L : List FusedResult) :
    ∀ (l pre : List FusedResult) (acc : Option Nat × Option ℚ),
      pre ++ l = L →
      ((acc.1 = none ∧ acc.2 = none ∧
          ∀ r ∈ pre, ¬ eligibleVictim p counts minC r) ∨
        (∃ j s, acc = (some j, some s) ∧
          ∃ r, L[j]? = some r ∧ eligibleVictim p counts minC r)) →
      (((findMinIdxAux p counts minC l pre.length acc).1 = none ∧
          ∀ r ∈ L, ¬ eligibleVictim p counts minC r) ∨
        (∃ j, (findMinIdxAux p counts minC l pre.length acc).1 = some j ∧
          ∃ r, L[j]? = some r ∧ eligibleVictim p counts minC r)) := by
  intro l
  induction l with
  | nil =>
    intro pre acc hpre hinv
    simp only [findMinIdxAux]
    rcases hinv with ⟨h1, h2, h3⟩ | ⟨j, s, hacc, r, hr, helig⟩
    · left
      refine ⟨h1, ?_⟩
      intro r hr
      apply h3
      rwa [← hpre, List.append_nil] at hr
    · right
      exact ⟨j, by rw [hacc], r, hr, helig⟩
  | cons hd tl ih =>
    intro pre acc hpre hinv
    simp only [findMinIdxAux]
    have hpre' : (pre ++ [hd]) ++ tl = L := by rw [← hpre]; simp
    have hLpre : L[pre.length]? = some hd := by
      rw [← hpre, List.getElem?_append_right (le_refl _)]
      simp
    have hlen : (pre ++ [hd]).length = pre.length + 1 := by simp
    by_cases helig : fprod hd ≠ p ∧ minC < counts (fprod hd) ∧
        counts p < counts (fprod hd)
    · rw [if_pos helig]
      rcases hinv with ⟨h1, h2, h3⟩ | ⟨j, s, hacc, r, hr, he⟩
      · rw [h2]
        have := ih (pre ++ [hd]) (some pre.length, some hd.rrf_score) hpre'
          (Or.inr ⟨pre.length, hd.rrf_score, rfl, hd, hLpre, helig⟩)
        rwa [hlen] at this
      · rw [hacc]
        simp only
        by_cases hlt : hd.rrf_score < s
        · rw [if_pos hlt]
          have := ih (pre ++ [hd]) (some pre.length, some hd.rrf_score) hpre'
            (Or.inr ⟨pre.length, hd.rrf_score, rfl, hd, hLpre, helig⟩)
          rwa [hlen] at this
        · rw [if_neg hlt]
          have := ih (pre ++ [hd]) (some j, some s) hpre'
            (Or.inr ⟨j, s, rfl, r, hr, he⟩)
          rwa [hlen] at this
    · rw [if_neg helig]
      rcases hinv with ⟨h1, h2, h3⟩ | ⟨j, s, hacc, r, hr, he⟩
      · have hext : ∀ r ∈ pre ++ [hd], ¬ eligibleVictim p counts minC r := by
          intro r hrmem
          rcases List.mem_append.mp hrmem with hmem | hmem
          · exact h3 r hmem
          · rcases List.mem_singleton.mp hmem with rfl
            exact helig
        have := ih (pre ++ [hd]) acc hpre' (Or.inl ⟨h1, h2, hext⟩)
        rwa [hlen] at this
      · have := ih (pre ++ [hd]) acc hpre' (Or.inr ⟨j, s, hacc, r, hr, he⟩)
        rwa [hlen] at this

lemma findMinIdx_spec (final : List FusedResult) (p : String)
    (counts : String → Nat) (minC : Nat)
    (hex : ∃ r ∈ final, eligibleVictim p counts minC r) :
    ∃ idx r, findMinIdx final p counts minC = some idx ∧
      final[idx]? = some r ∧ eligibleVictim p counts minC r := by
  have h := findMinIdxAux_spec p counts minC final final [] (none, none) rfl
    (Or.inl ⟨rfl, rfl, by simp⟩)
  rcases h with ⟨hnone, hall⟩ | ⟨j, hj, r, hr, helig⟩
  · rcases hex with ⟨r, hrmem, helig⟩
    exact absurd helig (hall r hrmem)
  · exact ⟨j, r, hj, hr, helig⟩

lemma secondPass_balance (A B : String) (hAB : A ≠ B) (allP : List String)
    (hAall : A ∈ allP) (hBall : B ∈ allP) :
    ∀ (rest : List (String × RRFEntry)) (final : List FusedResult)
      (counts : String → Nat),
      (∀ q, counts q = countF final q) →
      (∀ r ∈ final, fprod r = A ∨ fprod r = B) →
      (∀ pr ∈ rest, eprod pr = A ∨ eprod pr = B) →
      (rest.map Prod.fst).Nodup →
      counts A + counts B = final.length →
      final.length ≤ 5 →
      (final.length = 5 ∨ (2 ≤ counts A ∧ 2 ≤ counts B)) →
      2 ≤ counts A + supplyCount A rest final →
      2 ≤ counts B + supplyCount B rest final →
      2 ≤ countF (secondPass 2 allP rest final counts) A ∧
      2 ≤ countF (secondPass 2 allP rest final counts) B := by
  intro rest
  induction rest with
  | nil =>
    intro final counts hcounts _ _ _ _ _ _ hsupA hsupB
    rw [secondPass_nil]
    have hsA : supplyCount A [] final = 0 := rfl
    have hsB : supplyCount B [] final = 0 := rfl
    rw [hsA] at hsupA
    rw [hsB] at hsupB
    exact ⟨by rw [← hcounts A]; omega, by rw [← hcounts B]; omega⟩
  | cons pr tail ih =>
    intro final counts hcounts hfinal hrest hnd hsum hlen hcase hsupA hsupB
    have hprAB : eprod pr = A ∨ eprod pr = B := hrest pr (List.mem_cons_self _ _)
    have hrest' : ∀ q ∈ tail, eprod q = A ∨ eprod q = B :=
      fun q hq => hrest q (List.mem_cons_of_mem _ hq)
    have hndc : pr.1 ∉ tail.map Prod.fst ∧ (tail.map Prod.fst).Nodup := by
      rw [List.map_cons, List.nodup_cons] at hnd
      exact hnd
    rcases Bool.eq_false_or_eq_true
      (final.any (fun r => r.chunk_id = pr.1)) with h1 | h1
    · -- the candidate is already included: skip it
      rw [secondPass_cons_inFinal 2 allP pr tail final counts h1]
      refine ih final counts hcounts hfinal hrest' hndc.2 hsum hlen hcase ?_ ?_
      · rw [supplyCount_cons_in A pr tail final h1] at hsupA
        exact hsupA
      · rw [supplyCount_cons_in B pr tail final h1] at hsupB
        exact hsupB
    · -- fresh candidate
      by_cases h2 : counts (eprod pr) < 2
      · -- the candidate's product is under-represented
        have hlen5 : final.length = 5 := by
          rcases hcase with h | ⟨ha2, hb2⟩
          · exact h
          · exfalso
            rcases hprAB with hp | hp <;> rw [hp] at h2 <;> omega
        rcases hprAB with hpA | hpB
        · -- deficit in A; the victim has product B
          have h2A : counts A < 2 := by rwa [hpA] at h2
          have hB4 : 4 ≤ counts B := by omega
          have hexists : ∃ r ∈ final, eligibleVictim (eprod pr) counts 2 r := by
            have hpos : 0 < countF final B := by rw [← hcounts B]; omega
            rcases countF_pos_mem final B hpos with ⟨r, hrmem, hrB⟩
            refine ⟨r, hrmem, ?_, ?_, ?_⟩
            · rw [hrB, hpA]
              exact fun hc => hAB hc.symm
            · rw [hrB]
              omega
            · rw [hrB, hpA]
              omega
          obtain ⟨idx, rvict, hfm, hgetr, helig⟩ :=
            findMinIdx_spec final (eprod pr) counts 2 hexists
          have hrvictB : fprod rvict = B := by
            rcases hfinal rvict (List.getElem?_mem hgetr) with h | h
            · exact absurd (by rw [h, hpA]) helig.1
            · exact h
          have hgetD : final.getD idx junkFused = rvict := by
            rw [List.getD_eq_getElem?_getD, hgetr]
            rfl
          have hfx : fprod (mkFused pr.1 pr.2) = A := by
            rw [fprod_mkFused]
            exact hpA
          have hcA' : bumpCount (dropCount counts
              (fprod (final.getD idx junkFused))) (eprod pr) A =
              counts A + 1 := by
            rw [hgetD, hrvictB, hpA]
            simp [bumpCount, dropCount, hAB]
          have hcB' : bumpCount (dropCount counts
              (fprod (final.getD idx junkFused))) (eprod pr) B =
              counts B - 1 := by
            rw [hgetD, hrvictB, hpA]
            have hBA : ¬ B = A := fun hc => hAB hc.symm
            simp [bumpCount, dropCount, hBA]
          have hcorr' : ∀ q, bumpCount (dropCount counts
              (fprod (final.getD idx junkFused))) (eprod pr) q =
              countF (final.set idx (mkFused pr.1 pr.2)) q := by
            intro q
            have hset := countF_set final (mkFused pr.1 pr.2) rvict q idx hgetr
            rw [hfx, hrvictB] at hset
            by_cases hqa : q = A
            · rw [hqa, hcA']
              rw [hqa] at hset
              rw [if_neg (fun hc => hAB hc.symm), if_pos rfl] at hset
              rw [← hcounts A] at hset
              omega
            · by_cases hqb : q = B
              · rw [hqb, hcB']
                rw [hqb] at hset
                rw [if_pos rfl, if_neg hAB] at hset
                rw [← hcounts B] at hset
                omega
              · rw [hgetD, hrvictB, hpA]
                simp only [bumpCount, dropCount, if_neg hqa, if_neg hqb]
                rw [if_neg (fun hc => hqb hc.symm),
                  if_neg (fun hc => hqa hc.symm)] at hset
                rw [← hcounts q] at hset
                omega
          rcases Bool.eq_false_or_eq_true (allP.all (fun q =>
              2 ≤ bumpCount (dropCount counts
                (fprod (final.getD idx junkFused))) (eprod pr) q)) with hall | hall
          · -- balance reached: the pass returns the substituted list
            rw [secondPass_cons_swap_stop 2 allP pr tail final counts idx h1 h2
              hfm hall]
            have hallq := List.all_eq_true.mp hall
            have hA2 := hallq A hAall
            have hB2 := hallq B hBall
            simp only [decide_eq_true_eq] at hA2 hB2
            exact ⟨by rw [← hcorr' A]; exact hA2, by rw [← hcorr' B]; exact hB2⟩
          · -- keep balancing on the tail
            rw [secondPass_cons_swap_cont 2 allP pr tail final counts idx h1 h2
              hfm hall]
            have hsupA2 : supplyCount A (pr :: tail) final =
                supplyCount A tail final + 1 :=
              supplyCount_cons_fresh A pr tail final h1 hpA
            have hmono := supplyCount_set_ge A tail final idx pr hndc.1
            refine ih _ _ hcorr' ?_ hrest' hndc.2 ?_ ?_ ?_ ?_ ?_
            · intro r hr
              rcases List.mem_or_eq_of_mem_set hr with hrf | hrx
              · exact hfinal r hrf
              · exact hrx ▸ Or.inl hfx
            · rw [hcA', hcB', List.length_set]
              omega
            · rw [List.length_set]
              exact hlen
            · rw [List.length_set]
              exact Or.inl hlen5
            · rw [hcA']
              rw [hsupA2] at hsupA
              omega
            · rw [hcB']
              omega
        · -- deficit in B; the victim has product A
          have h2B : counts B < 2 := by rwa [hpB] at h2
          have hA4 : 4 ≤ counts A := by omega
          have hexists : ∃ r ∈ final, eligibleVictim (eprod pr) counts 2 r := by
            have hpos : 0 < countF final A := by rw [← hcounts A]; omega
            rcases countF_pos_mem final A hpos with ⟨r, hrmem, hrA⟩
            refine ⟨r, hrmem, ?_, ?_, ?_⟩
            · rw [hrA, hpB]
              exact hAB
            · rw [hrA]
              omega
            · rw [hrA, hpB]
              omega
          obtain ⟨idx, rvict, hfm, hgetr, helig⟩ :=
            findMinIdx_spec final (eprod pr) counts 2 hexists
          have hrvictA : fprod rvict = A := by
            rcases hfinal rvict (List.getElem?_mem hgetr) with h | h
            · exact h
            · exact absurd (by rw [h, hpB]) helig.1
          have hgetD : final.getD idx junkFused = rvict := by
            rw [List.getD_eq_getElem?_getD, hgetr]
            rfl
          have hfx : fprod (mkFused pr.1 pr.2) = B := by
            rw [fprod_mkFused]
            exact hpB
          have hcB' : bumpCount (dropCount counts
              (fprod (final.getD idx junkFused))) (eprod pr) B =
              counts B + 1 := by
            rw [hgetD, hrvictA, hpB]
            have hBA : ¬ B = A := fun hc => hAB hc.symm
            simp [bumpCount, dropCount, hBA]
          have hcA' : bumpCount (dropCount counts
              (fprod (final.getD idx junkFused))) (eprod pr) A =
              counts A - 1 := by
            rw [hgetD, hrvictA, hpB]
            simp [bumpCount, dropCount, hAB]
          have hcorr' : ∀ q, bumpCount (dropCount counts
              (fprod (final.getD idx junkFused))) (eprod pr) q =
              countF (final.set idx (mkFused pr.1 pr.2)) q := by
            intro q
            have hset := countF_set final (mkFused pr.1 pr.2) rvict q idx hgetr
            rw [hfx, hrvictA] at hset
            by_cases hqb : q = B
            · rw [hqb, hcB']
              rw [hqb] at hset
              rw [if_neg hAB, if_pos rfl] at hset
              rw [← hcounts B] at hset
              omega
            · by_cases hqa : q = A
              · rw [hqa, hcA']
                rw [hqa] at hset
                rw [if_pos rfl, if_neg (fun hc => hAB hc.symm)] at hset
                rw [← hcounts A] at hset
                omega
              · rw [hgetD, hrvictA, hpB]
                simp only [bumpCount, dropCount, if_neg hqb, if_neg hqa]
                rw [if_neg (fun hc => hqa hc.symm),
                  if_neg (fun hc => hqb hc.symm)] at hset
                rw [← hcounts q] at hset
                omega
          rcases Bool.eq_false_or_eq_true (allP.all (fun q =>
              2 ≤ bumpCount (dropCount counts
                (fprod (final.getD idx junkFused))) (eprod pr) q)) with hall | hall
          · rw [secondPass_cons_swap_stop 2 allP pr tail final counts idx h1 h2
              hfm hall]
            have hallq := List.all_eq_true.mp hall
            have hA2 := hallq A hAall
            have hB2 := hallq B hBall
            simp only [decide_eq_true_eq] at hA2 hB2
            exact ⟨by rw [← hcorr' A]; exact hA2, by rw [← hcorr' B]; exact hB2⟩
          · rw [secondPass_cons_swap_cont 2 allP pr tail final counts idx h1 h2
              hfm hall]
            have hsupB2 : supplyCount B (pr :: tail) final =
                supplyCount B tail final + 1 :=
              supplyCount_cons_fresh B pr tail final h1 hpB
            have hmono := supplyCount_set_ge B tail final idx pr hndc.1
            refine ih _ _ hcorr' ?_ hrest' hndc.2 ?_ ?_ ?_ ?_ ?_
            · intro r hr
              rcases List.mem_or_eq_of_mem_set hr with hrf | hrx
              · exact hfinal r hrf
              · exact hrx ▸ Or.inr hfx
            · rw [hcA', hcB', List.length_set]
              omega
            · rw [List.length_set]
              exact hlen
            · rw [List.length_set]
              exact Or.inl hlen5
            · rw [hcA']
              omega
            · rw [hcB']
              rw [hsupB2] at hsupB
              omega
      · -- full already: skip the candidate
        rw [secondPass_cons_full 2 allP pr tail final counts h1 h2]
        refine ih final counts hcounts hfinal hrest' hndc.2 hsum hlen hcase ?_ ?_
        · rcases hprAB with hpA | hpB
          · have h2A : 2 ≤ counts A := by
              rw [hpA] at h2
              omega
            omega
          · have hne : eprod pr ≠ A := by
              rw [hpB]
              exact fun hc => hAB hc.symm
            rw [supplyCount_cons_other A pr tail final hne] at hsupA
            exact hsupA
        · rcases hprAB with hpA | hpB
          · have hne : eprod pr ≠ B := by
              rw [hpA]
              exact hAB
            rw [supplyCount_cons_other B pr tail final hne] at hsupB
            exact hsupB
          · have h2B : 2 ≤ counts B := by
              rw [hpB] at h2
              omega
            omega

lemma ids_map_mk (l : List (String × RRFEntry)) :
    (l.map (fun pr => mkFused pr.1 pr.2)).map FusedResult.chunk_id =
      l.map Prod.fst := by
  rw [List.map_map]
  rfl

lemma supplyCount_append (X : String) (l₁ l₂ : List (String × RRFEntry))
    (final : List FusedResult) :
    supplyCount X (l₁ ++ l₂) final =
      supplyCount X l₁ final + supplyCount X l₂ final := by
  simp [supplyCount, List.filter_append]

lemma supplyCount_eq_countE_of_fresh (X : String)
    (rest : List (String × RRFEntry)) (final : List FusedResult)
    (h : ∀ q ∈ rest, (final.any (fun r => decide (r.chunk_id = q.1))) = false) :
    supplyCount X rest final = countE rest X := by
  rw [supplyCount, countE, ← List.countP_eq_length_filter,
    ← List.countP_eq_length_filter]
  apply List.countP_congr
  intro q hq
  rw [h q hq]
  simp

lemma ensure_diversity_two_products (pool : List (String × RRFEntry))
    (A B : String) (hAB : A ≠ B)
    (hnd : (pool.map Prod.fst).Nodup)
    (hprod : ∀ pr ∈ pool, eprod pr = A ∨ eprod pr = B)
    (hA : 2 ≤ countE pool A) (hB : 2 ≤ countE pool B) :
    2 ≤ countF (ensure_product_diversity pool 5) A ∧
    2 ≤ countF (ensure_product_diversity pool 5) B := by
  have hAall : A ∈ pool.map eprod := by
    rcases countE_pos_mem pool A (by omega) with ⟨pr, hpr, hprA⟩
    exact hprA ▸ List.mem_map_of_mem eprod hpr
  have hBall : B ∈ pool.map eprod := by
    rcases countE_pos_mem pool B (by omega) with ⟨pr, hpr, hprB⟩
    exact hprB ▸ List.mem_map_of_mem eprod hpr
  have hfst : (firstPassAux 5 pool [] (fun _ => 0)).1 =
      (pool.take 5).map (fun pr => mkFused pr.1 pr.2) := by
    rw [firstPassAux_fst]
    simp
  have hcnt := firstPassAux_counts 5 pool [] (fun _ => 0) (fun q => rfl)
  have hfinal : ∀ r ∈ (firstPassAux 5 pool [] (fun _ => 0)).1,
      fprod r = A ∨ fprod r = B := by
    rw [hfst]
    intro r hr
    rcases List.mem_map.mp hr with ⟨pr, hpr, heq⟩
    rw [← heq, fprod_mkFused]
    exact hprod pr (List.mem_of_mem_take hpr)
  have hcntE : ∀ q, (firstPassAux 5 pool [] (fun _ => 0)).2 q =
      countE (pool.take 5) q := by
    intro q
    rw [hcnt q, hfst, countF_map_mk]
  have hsplitE : ∀ q, countE pool q =
      countE (pool.take 5) q + countE (pool.drop 5) q := by
    intro q
    conv_lhs => rw [← List.take_append_drop 5 pool]
    exact countE_append _ _ q
  have hfreshdrop : ∀ q ∈ pool.drop 5,
      ((firstPassAux 5 pool [] (fun _ => 0)).1.any
        (fun r => decide (r.chunk_id = q.1))) = false := by
    intro q hq
    rw [hfst, anyId_eq_false_iff, ids_map_mk]
    have hdisj : (pool.take 5).Disjoint (pool.drop 5) → True := fun _ => trivial
    have hndsplit : ((pool.take 5).map Prod.fst ++
        (pool.drop 5).map Prod.fst).Nodup := by
      rw [← List.map_append, List.take_append_drop]
      exact hnd
    rcases List.nodup_append.mp hndsplit with ⟨_, _, hdis⟩
    intro hmem
    exact hdis hmem (List.mem_map_of_mem Prod.fst hq)
  have hsupply : ∀ X, countE (pool.drop 5) X ≤
      supplyCount X pool (firstPassAux 5 pool [] (fun _ => 0)).1 := by
    intro X
    have key : ∀ F : List FusedResult,
        (∀ q ∈ pool.drop 5,
          (F.any (fun r => decide (r.chunk_id = q.1))) = false) →
        countE (pool.drop 5) X ≤ supplyCount X pool F := by
      intro F hfresh
      conv_rhs => rw [← List.take_append_drop 5 pool]
      rw [supplyCount_append, supplyCount_eq_countE_of_fresh X (pool.drop 5)
        F hfresh]
      omega
    exact key _ hfreshdrop
  have hsum : (firstPassAux 5 pool [] (fun _ => 0)).2 A +
      (firstPassAux 5 pool [] (fun _ => 0)).2 B =
      (firstPassAux 5 pool [] (fun _ => 0)).1.length := by
    rw [hcnt A, hcnt B]
    exact countF_two_products A B hAB _ hfinal
  have hlen : (firstPassAux 5 pool [] (fun _ => 0)).1.length ≤ 5 := by
    rw [hfst]
    simp [List.length_take]
  have hcase : (firstPassAux 5 pool [] (fun _ => 0)).1.length = 5 ∨
      (2 ≤ (firstPassAux 5 pool [] (fun _ => 0)).2 A ∧
        2 ≤ (firstPassAux 5 pool [] (fun _ => 0)).2 B) := by
    by_cases hp5 : 5 ≤ pool.length
    · left
      rw [hfst]
      simp [List.length_take]
      omega
    · right
      have htall : pool.take 5 = pool :=
        List.take_of_length_le (by omega)
      constructor
      · rw [hcntE A, htall]
        exact hA
      · rw [hcntE B, htall]
        exact hB
  have hsupA : 2 ≤ (firstPassAux 5 pool [] (fun _ => 0)).2 A +
      supplyCount A pool (firstPassAux 5 pool [] (fun _ => 0)).1 := by
    have h1 := hsupply A
    have h2 := hsplitE A
    rw [hcntE A]
    omega
  have hsupB : 2 ≤ (firstPassAux 5 pool [] (fun _ => 0)).2 B +
      supplyCount B pool (firstPassAux 5 pool [] (fun _ => 0)).1 := by
    have h1 := hsupply B
    have h2 := hsplitE B
    rw [hcntE B]
    omega
  show 2 ≤ countF (secondPass (max 1 (5 / 2)) (pool.map eprod) pool
      (firstPassAux 5 pool [] (fun _ => 0)).1
      (firstPassAux 5 pool [] (fun _ => 0)).2) A ∧
    2 ≤ countF (secondPass (max 1 (5 / 2)) (pool.map eprod) pool
      (firstPassAux 5 pool [] (fun _ => 0)).1
      (firstPassAux 5 pool [] (fun _ => 0)).2) B
  rw [show (max 1 (5 / 2) : Nat) = 2 from rfl]
  exact secondPass_balance A B hAB (pool.map eprod) hAall hBall pool
    (firstPassAux 5 pool [] (fun _ => 0)).1
    (firstPassAux 5 pool [] (fun _ => 0)).2
    hcnt hfinal hprod hnd hsum hlen hcase hsupA hsupB

/-- C3 (amended): for every call to `search_hybrid` with `top_k = 5`,
`apply_diversity = true`, and `target_products` not an explicitly empty list
(`None`, a single target, or two or more targets), if the fused candidate pool
contains exactly two entities with at least 2 chunks of each, the returned
list contains at least 2 chunks from each entity (the minimum share per entity
being `max 1 (top_k / 2) = 2`).  The amendment is forced by the
`target_products = some []` counterexample below: an explicitly empty target
list leaves the filter inactive but disables diversity balancing. -/
theorem diversity_lower_bound (rrf_k : ℚ)
    (bm25_raw vector_raw : List (Chunk × ℚ))
    (target_products : Option (List String)) (A B : String)
    (hAB : A ≠ B)
    (htp : target_products ≠ some [])
    (hprod : ∀ pr ∈ buildRRF rrf_k target_products (search_bm25 bm25_raw)
        (search_vector vector_raw), eprod pr = A ∨ eprod pr = B)
    (hA : 2 ≤ countE (buildRRF rrf_k target_products (search_bm25 bm25_raw)
        (search_vector vector_raw)) A)
    (hB : 2 ≤ countE (buildRRF rrf_k target_products (search_bm25 bm25_raw)
        (search_vector vector_raw)) B) :
    2 ≤ countF (search_hybrid rrf_k bm25_raw vector_raw 5 target_products
          true) A ∧
    2 ≤ countF (search_hybrid rrf_k bm25_raw vector_raw 5 target_products
          true) B := by
  rcases Bool.eq_false_or_eq_true
    (should_apply_diversity true target_products) with hsad | hsad
  · -- diversity applied
    rw [search_hybrid_diversity_branch rrf_k bm25_raw vector_raw 5
      target_products true hsad]
    have hperm := sortByScore_perm (buildRRF rrf_k target_products
      (search_bm25 bm25_raw) (search_vector vector_raw))
    refine ensure_diversity_two_products _ A B hAB ?_ ?_ ?_ ?_
    · refine ((hperm.map Prod.fst).nodup_iff).mpr ?_
      exact nodup_keys_buildRRF rrf_k target_products _ _
    · intro pr hpr
      exact hprod pr (hperm.mem_iff.mp hpr)
    · exact (countE_perm _ _ A hperm).symm ▸ hA
    · exact (countE_perm _ _ B hperm).symm ▸ hB
  · -- diversity skipped: only possible for a single-element target list,
    -- which contradicts the two-entity pool
    exfalso
    have hx : ∃ x, target_products = some [x] := by
      cases htpv : target_products with
      | none =>
        rw [htpv] at hsad
        simp [should_apply_diversity] at hsad
      | some l =>
        rw [htpv] at hsad
        simp [should_apply_diversity] at hsad
        cases l with
        | nil => exact absurd htpv (htpv ▸ htp)
        | cons x t =>
          cases t with
          | nil => exact ⟨x, rfl⟩
          | cons y t2 => simp at hsad
    obtain ⟨x, hxeq⟩ := hx
    rw [hxeq] at hprod hA hB
    have hall := buildRRF_targets rrf_k [x] (by simp)
      (search_bm25 bm25_raw) (search_vector vector_raw)
    have heprodx : ∀ pr ∈ buildRRF rrf_k (some [x]) (search_bm25 bm25_raw)
        (search_vector vector_raw), eprod pr = x := by
      intro pr hpr
      rcases hall pr hpr with ⟨c, hc, hcl⟩
      rw [eprod, hc]
      exact List.mem_singleton.mp hcl
    have hAx : A = x := by
      rcases countE_pos_mem (buildRRF rrf_k (some [x]) (search_bm25 bm25_raw)
        (search_vector vector_raw)) A (by omega) with ⟨pr, hpr, hprA⟩
      rw [← hprA]
      exact heprodx pr hpr
    have hBx : B = x := by
      rcases countE_pos_mem (buildRRF rrf_k (some [x]) (search_bm25 bm25_raw)
        (search_vector vector_raw)) B (by omega) with ⟨pr, hpr, hprB⟩
      rw [← hprB]
      exact heprodx pr hpr
    exact hAB (hAx.trans hBx.symm)

/-- C3 (counterexample): the call with `target_products = some []` (an
explicitly empty list), `top_k = 5` and `apply_diversity = true` on a pool
with exactly two entities and at least two chunks of each: the filter is
inactive (Python truthiness), yet the code skips diversity balancing because
`target_products is None or len(target_products) > 1` is false, and entity B
gets only one chunk. -/
theorem diversity_lower_bound_counterexample :
    (∀ pr ∈ buildRRF 60 (some []) (search_bm25 braw10) (search_vector []),
      eprod pr = "A" ∨ eprod pr = "B") ∧
    2 ≤ countE (buildRRF 60 (some []) (search_bm25 braw10)
      (search_vector [])) "A" ∧
    2 ≤ countE (buildRRF 60 (some []) (search_bm25 braw10)
      (search_vector [])) "B" ∧
    countF (search_hybrid 60 braw10 [] 5 (some []) true) "B" < 2 := by
  refine ⟨by decide, by decide, by decide, ?_⟩
  have hm : buildRRF 60 (some []) (search_bm25 braw10) (search_vector []) =
      pool10 := rfl
  have hres := search_hybrid_truncate_branch 60 braw10 [] 5 (some []) true rfl
  rw [hres]
  rw [show fusedPool 60 braw10 [] (some []) = pool10 from by
    unfold fusedPool
    rw [hm]
    exact sortByScore_eq_self _ pool10_sorted]
  decide

/-- Concrete instantiation of `diversity_lower_bound`: a four-chunk pool with
two entities, two chunks each; both entities keep their two chunks. -/
theorem diversity_lower_bound_witness :
    2 ≤ countF (search_hybrid 60 [(mkChunk "a1" "A", 9), (mkChunk "a2" "A", 8),
        (mkChunk "b1" "B", 7), (mkChunk "b2" "B", 6)] [] 5 none true) "A" ∧
    2 ≤ countF (search_hybrid 60 [(mkChunk "a1" "A", 9), (mkChunk "a2" "A", 8),
        (mkChunk "b1" "B", 7), (mkChunk "b2" "B", 6)] [] 5 none true) "B" :=
  diversity_lower_bound 60
    [(mkChunk "a1" "A", 9), (mkChunk "a2" "A", 8),
      (mkChunk "b1" "B", 7), (mkChunk "b2" "B", 6)] [] none "A" "B"
    (by decide) (by decide) (by decide) (by decide) (by decide)
